import Mathlib

/-!
The scraping-judul-skripsi service: the pagination loop, the normaliser and the
next-link builder.

A shallow embedding of `src/index.js`.

Modelling conventions.
* JavaScript numbers are doubles: `NaN`, the infinities, or a finite value
  `m / 2 ^ k` (`JsNum`); addition rounds to the nearest double, ties to even.
  The numbers `Number(req.query...)` and the arguments of `buildNextUrl` are
  inputs of the model.
* JavaScript strings are sequences of Unicode scalar values (`String`, whose
  `data` is a `List Char`).
* The upstream service behind `fetchMika` is a function from the number of
  calls already made and the arguments of the call to the batch it returns or
  the error it throws.
* The `await sleep(...)` between two requests has no effect on the collected
  data and is not part of the model.
-/

namespace ScrapingJudulSkripsi

/-! ## JavaScript numbers -/

/-- A JavaScript number: `NaN`, an infinity, or the finite value `m / 2 ^ k`
(every finite double is of this form; `-0` is not told apart from `0`, which no
modelled operation observes). -/
inductive JsNum where
  | nan
  | posInf
  | negInf
  | fin (m : Int) (k : Nat)
deriving DecidableEq

/-- The number with the value of a natural number. -/
def JsNum.ofNat (n : Nat) : JsNum := .fin n 0

/-- The comparison `n < x` for an array length `n`. -/
def natLt (n : Nat) : JsNum → Bool
  | .nan => false
  | .posInf => true
  | .negInf => false
  | .fin m k => decide ((n : Int) * 2 ^ k < m)

/-- The comparison `n >= x` for an array length `n`. -/
def natGe (n : Nat) : JsNum → Bool
  | .nan => false
  | .posInf => false
  | .negInf => true
  | .fin m k => decide (m ≤ (n : Int) * 2 ^ k)

/-- The call `Math.max(a, b)`. -/
def jsMax : JsNum → JsNum → JsNum
  | .nan, _ => .nan
  | _, .nan => .nan
  | .posInf, _ => .posInf
  | _, .posInf => .posInf
  | .negInf, b => b
  | a, .negInf => a
  | .fin m1 k1, .fin m2 k2 =>
    if m1 * 2 ^ k2 < m2 * 2 ^ k1 then .fin m2 k2 else .fin m1 k1

/-- Floor of the binary logarithm of `n`, by repeated halving; the first
argument bounds the number of halvings. -/
def halvings : Nat → Nat → Nat
  | 0, _ => 0
  | fuel + 1, n => if n < 2 then 0 else halvings fuel (n / 2) + 1

/-- Floor of the binary logarithm of `n` (0 for `n = 0`). -/
def floorLog2 (n : Nat) : Nat := halvings n n

/-- Division of `a` by `2 ^ t` rounded to the nearest integer, ties to even. -/
def roundShift (a t : Nat) : Nat :=
  let q := a / 2 ^ t
  let r := a % 2 ^ t
  let h := 2 ^ (t - 1)
  if t = 0 then a
  else if r < h then q
  else if h < r then q + 1
  else if q % 2 = 0 then q else q + 1

/-- The double nearest to `s / 2 ^ k` (round to nearest, ties to even), in
lowest terms. With `a = |s|` and `2 ^ E ≤ a / 2 ^ k < 2 ^ (E + 1)`, the doubles
around the value are the multiples of `2 ^ u`, `u = max E (-1022) - 52`; a
rounded value `M * 2 ^ u` of `2 ^ 1024` or more, that is one with
`floorLog2 M + u ≥ 1024`, is an infinity. -/
def roundDyadic (s : Int) (k : Nat) : JsNum :=
  if s = 0 then .fin 0 0
  else
    let a := s.natAbs
    let E : Int := (floorLog2 a : Int) - (k : Int)
    let u : Int := max E (-1022) - 52
    let t : Int := (k : Int) + u
    let M : Nat := if t ≤ 0 then a * 2 ^ (-t).toNat else roundShift a t.toNat
    if 0 ≤ u then
      if 1024 ≤ floorLog2 M + u.toNat then (if 0 < s then .posInf else .negInf)
      else .fin (if 0 < s then (M * 2 ^ u.toNat : Nat) else -((M * 2 ^ u.toNat : Nat) : Int)) 0
    else
      let d := 2 ^ (-u).toNat
      let g := Nat.gcd M d
      .fin (if 0 < s then ((M / g : Nat) : Int) else -((M / g : Nat) : Int)) (floorLog2 (d / g))

/-- The sum `a + b` of two numbers (IEEE 754 double addition). -/
def jsAdd : JsNum → JsNum → JsNum
  | .nan, _ => .nan
  | _, .nan => .nan
  | .posInf, .negInf => .nan
  | .negInf, .posInf => .nan
  | .posInf, _ => .posInf
  | _, .posInf => .posInf
  | .negInf, _ => .negInf
  | _, .negInf => .negInf
  | .fin m1 k1, .fin m2 k2 =>
    roundDyadic (m1 * 2 ^ (max k1 k2 - k1) + m2 * 2 ^ (max k1 k2 - k2)) (max k1 k2)

/-- Least natural number that is at least `m / 2 ^ k` (0 for a negative value). -/
def ceilNat (m : Int) (k : Nat) : Nat := (m.toNat + 2 ^ k - 1) / 2 ^ k

/-- Greatest natural number that is at most `m / 2 ^ k` (0 for a negative value). -/
def floorNat (m : Int) (k : Nat) : Nat := m.toNat / 2 ^ k

/-! ## The `/scrape/save-csv-auto` pagination loop (index.js 211-255) -/

/-- Arguments of one `fetchMika({ page, limit, offset, order_by })` call. -/
structure FetchArgs where
  page : JsNum
  limit : JsNum
  offset : JsNum
  order_by : List String
deriving DecidableEq

/-- One upstream call as the loop sees it: the arguments sent and the batch
that came back. -/
structure Call (α : Type) where
  args : FetchArgs
  batch : List α
deriving DecidableEq

/-- The error thrown by a failed `fetchMika` call: the upstream status, if
any, and a message. -/
structure FetchError where
  status : Option Nat
  message : String
deriving DecidableEq

/-- The call `await fetchMika(...)` as the loop sees it: given how many calls
were made before and the arguments of this call, either the batch (`data`) or
the error thrown. -/
abbrev Upstream (α : Type) := Nat → FetchArgs → Except FetchError (List α)

/-- An upstream that never fails: call number and arguments determine the
batch returned. -/
abbrev Batches (α : Type) := Nat → FetchArgs → List α

/-- The upstream that answers every call with the batch given by `src`. -/
def okSource {α : Type} (src : Batches α) : Upstream α :=
  fun i a => .ok (src i a)

/-- Variables of the loop: `collected`, `attempts`, `offset`, and a ghost log
`calls` of the upstream calls in the order they were made. -/
structure LoopState (α : Type) where
  collected : List α
  attempts : Nat
  offset : JsNum
  calls : List (Call α)
deriving DecidableEq

/-- The constant `MAX_REQUESTS` (index.js 224). -/
def MAX_REQUESTS : Nat := 50

/-- The inner loop (index.js 242-245):
`for (const item of batch) { if (collected.length >= target) break; collected.push(item); }`. -/
def pushBatch {α : Type} (target : JsNum) : List α → List α → List α
  | collected, [] => collected
  | collected, item :: rest =>
    if natGe collected.length target then collected
    else pushBatch target (collected ++ [item]) rest

/-- The `while` loop (index.js 227-255), with `target`, `perPage` and `offset`
the numbers computed at index.js 211-213. An error thrown by `fetchMika` leaves
the loop (it is caught by the handler). The batch is always an array here, so
`!Array.isArray(batch)` is false. The first argument bounds the number of
iterations; `paginate_fuel` shows that `MAX_REQUESTS - attempts` iterations are
always enough, so the bound never cuts a run short. -/
def paginate {α : Type} (fetchMika : Upstream α) (order_by : List String)
    (target perPage : JsNum) : Nat → LoopState α → Except FetchError (LoopState α)
  | 0, st => .ok st
  | fuel + 1, st =>
    if natLt st.collected.length target = true ∧ st.attempts < MAX_REQUESTS then
      let attempts := st.attempts + 1
      let args : FetchArgs := ⟨.ofNat 1, perPage, st.offset, order_by⟩
      match fetchMika st.attempts args with
      | .error e => .error e
      | .ok batch =>
        let calls := st.calls ++ [⟨args, batch⟩]
        if batch.length = 0 then
          .ok ⟨st.collected, attempts, st.offset, calls⟩
        else
          let collected := pushBatch target st.collected batch
          let offset := jsAdd st.offset perPage
          if natLt batch.length perPage = true then
            .ok ⟨collected, attempts, offset, calls⟩
          else
            paginate fetchMika order_by target perPage fuel ⟨collected, attempts, offset, calls⟩
    else .ok st

/-- The handler up to the end of the loop (index.js 211-255). The arguments
`targetQ`, `perPageQ` and `startQ` are the numbers `Number(req.query.target ?? 100)`,
`Number(req.query.per_page ?? 25)` and `Number(req.query.start_offset ?? 0)`:
any JavaScript number, `NaN` included. -/
def saveCsvAuto {α : Type} (fetchMika : Upstream α) (order_by : List String)
    (targetQ perPageQ startQ : JsNum) : Except FetchError (LoopState α) :=
  let target := jsMax (.ofNat 1) targetQ
  let perPage := jsMax (.ofNat 1) perPageQ
  let offset := jsMax (.ofNat 0) startQ
  paginate fetchMika order_by target perPage MAX_REQUESTS ⟨[], 0, offset, []⟩

/-! ### Vocabulary for the statements about the loop -/

/-- Offset of the `i`-th call (counted from 0): `perPage` added `i` times to
the start offset, in double arithmetic. -/
def offsetAt (perPage start : JsNum) : Nat → JsNum
  | 0 => start
  | i + 1 => jsAdd (offsetAt perPage start i) perPage

/-- Arguments of the `i`-th call (counted from 0). -/
def argsAt (order_by : List String) (perPage start : JsNum) (i : Nat) : FetchArgs :=
  ⟨.ofNat 1, perPage, offsetAt perPage start i, order_by⟩

/-- Batch the source returns at call `i`. -/
def batchAt {α : Type} (src : Batches α) (order_by : List String)
    (perPage start : JsNum) (i : Nat) : List α :=
  src i (argsAt order_by perPage start i)

/-- Concatenation, in call order, of the batches of the first `n` calls. -/
def fetched {α : Type} (src : Batches α) (order_by : List String)
    (perPage start : JsNum) (n : Nat) : List α :=
  ((List.range n).map (batchAt src order_by perPage start)).flatten

/-- Log of the first `n` calls. -/
def callLog {α : Type} (src : Batches α) (order_by : List String)
    (perPage start : JsNum) (n : Nat) : List (Call α) :=
  (List.range n).map fun i =>
    ⟨argsAt order_by perPage start i, batchAt src order_by perPage start i⟩

/-- The longest initial part of `l` whose length does not reach past the
number `x`: the first `⌈x⌉` elements for a finite `x`, all of `l` for
`Infinity`, nothing for `NaN`. -/
def takeUpTo {α : Type} (x : JsNum) (l : List α) : List α :=
  match x with
  | .nan => []
  | .negInf => []
  | .posInf => l
  | .fin m k => l.take (ceilNat m k)

/-- The comparison `x < n`: the count `n` exceeds the number `x`. -/
def exceeds (n : Nat) : JsNum → Bool
  | .nan => false
  | .posInf => false
  | .negInf => true
  | .fin m k => decide (m < (n : Int) * 2 ^ k)

/-- An upstream that serves a fixed list `L` by offset/limit windows: a call
with offset `o` and limit `p` returns the elements of `L` at the positions
`i` with `o ≤ i ≤ o + p - 1` (exact arithmetic), that is `⌊o + p⌋ - ⌈o⌉`
elements from position `⌈o⌉` on; nothing when `o` or `p` is not a finite
number. -/
def windowSource {α : Type} (L : List α) : Batches α :=
  fun _ a =>
    match a.offset, a.limit with
    | .fin mo ko, .fin ml kl =>
      (L.drop (ceilNat mo ko)).take
        (floorNat (mo * 2 ^ (max ko kl - ko) + ml * 2 ^ (max ko kl - kl)) (max ko kl)
          - ceilNat mo ko)
    | _, _ => []

/-- Invariant at the head of the loop. -/
structure AtHead {α : Type} (src : Batches α) (ob : List String) (target p s : JsNum)
    (st : LoopState α) : Prop where
  calls_eq : st.calls = callLog src ob p s st.attempts
  offset_eq : st.offset = offsetAt p s st.attempts
  collected_eq : st.collected = takeUpTo target (fetched src ob p s st.attempts)
  full : ∀ i, i < st.attempts →
    natLt (batchAt src ob p s i).length p = false ∧ batchAt src ob p s i ≠ []
  unmet : ∀ j, j < st.attempts → natLt (fetched src ob p s j).length target = true

/-- What holds of the state the loop ends in. -/
structure AtExit {α : Type} (src : Batches α) (ob : List String) (target p s : JsNum)
    (st : LoopState α) : Prop where
  cap : st.attempts ≤ MAX_REQUESTS
  calls_eq : st.calls = callLog src ob p s st.attempts
  collected_eq : st.collected = takeUpTo target (fetched src ob p s st.attempts)
  full : ∀ i, i + 1 < st.attempts →
    natLt (batchAt src ob p s i).length p = false ∧ batchAt src ob p s i ≠ []
  unmet : ∀ j, j < st.attempts → natLt (fetched src ob p s j).length target = true
  stop : natLt st.collected.length target = false ∨ st.attempts = MAX_REQUESTS ∨
    (0 < st.attempts ∧ (batchAt src ob p s (st.attempts - 1) = [] ∨
      natLt (batchAt src ob p s (st.attempts - 1)).length p = true))

/-! ## JavaScript values -/

/-- JSON-shaped JavaScript values, plus `undefined`. A number is
integer-valued; the code only observes whether it is zero. -/
inductive JsVal where
  | undefined
  | null
  | bool (b : Bool)
  | num (n : Int)
  | str (s : String)
  | arr (xs : List JsVal)
  | obj (fields : List (String × JsVal))

/-- Exceptions thrown by the modelled code. -/
inductive JsError where
  | typeError (msg : String)
deriving DecidableEq

/-- JavaScript truthiness (`ToBoolean`). -/
def truthy : JsVal → Bool
  | .undefined => false
  | .null => false
  | .bool b => b
  | .num n => n != 0
  | .str s => s != ""
  | .arr _ => true
  | .obj _ => true

/-- Property read `v.key` for a key that is not a built-in property name (true
of every key `mapItem` reads): a `TypeError` on `null` and `undefined`, the
own property of an object, `undefined` everywhere else. -/
def getProp (v : JsVal) (key : String) : Except JsError JsVal :=
  match v with
  | .undefined => .error (.typeError "Cannot read properties of undefined")
  | .null => .error (.typeError "Cannot read properties of null")
  | .obj fields => .ok ((fields.lookup key).getD .undefined)
  | _ => .ok .undefined

/-- The expression `a || b`: `b` is consulted only when `a` evaluated to a
falsy value. -/
def jsOr (a b : Except JsError JsVal) : Except JsError JsVal :=
  match a with
  | .error e => .error e
  | .ok v => if truthy v then .ok v else b

/-! ## `cleanText` (index.js 40-43) -/

/-- Characters matched by the class `[\r\n]`. -/
def isLineBreak (c : Char) : Bool := c == '\r' || c == '\n'

/-- Code points removed by `String.prototype.trim` (WhiteSpace and
LineTerminator of ECMAScript). -/
def jsWhiteSpaceCodes : List Nat :=
  [0x09, 0x0A, 0x0B, 0x0C, 0x0D, 0x20, 0xA0, 0x1680,
   0x2000, 0x2001, 0x2002, 0x2003, 0x2004, 0x2005, 0x2006, 0x2007, 0x2008, 0x2009, 0x200A,
   0x2028, 0x2029, 0x202F, 0x205F, 0x3000, 0xFEFF]

/-- Whether `trim` strips the character. -/
def isJsWhiteSpace (c : Char) : Bool := jsWhiteSpaceCodes.contains c.toNat

mutual
/-- The call `text.replace(/[\r\n]+/g, ' ')`, scanning for the next match:
a line-break character starts a match, which is replaced by one space. -/
def replaceLineBreaks : List Char → List Char
  | [] => []
  | c :: cs => if isLineBreak c then ' ' :: skipLineBreaks cs else c :: replaceLineBreaks cs
/-- Inside a match of `[\r\n]+`: the greedy `+` consumes every further
line-break character; the scan resumes at the first other character. -/
def skipLineBreaks : List Char → List Char
  | [] => []
  | c :: cs => if isLineBreak c then skipLineBreaks cs else c :: replaceLineBreaks cs
end

/-- The method `String.prototype.trim`. -/
def jsTrim (s : List Char) : List Char :=
  (s.dropWhile isJsWhiteSpace).rdropWhile isJsWhiteSpace

/-- The function `cleanText` (index.js 40-43). A truthy value that is not a
string has no `replace` method, so the call throws. -/
def cleanText (text : JsVal) : Except JsError JsVal :=
  if !truthy text then .ok .null
  else
    match text with
    | .str s => .ok (.str ⟨jsTrim (replaceLineBreaks s.data)⟩)
    | _ => .error (.typeError "text.replace is not a function")

/-! ## `mapItem` (index.js 51-79) -/

/-- The canonical record returned by `mapItem`. -/
structure CanonicalRecord where
  nim : JsVal
  nama : JsVal
  judul_indonesia : JsVal
  judul_inggris : JsVal
  status : JsVal
  judul_tugas_akhir_program_studi : JsVal
  jenis_jalur : JsVal

/-- The function `mapItem` (index.js 51-79); the parameter default `raw = {}`
applies when the argument is `undefined`. -/
def mapItem (rawArg : JsVal) : Except JsError CanonicalRecord := do
  let raw := match rawArg with
    | .undefined => JsVal.obj []
    | v => v
  let mhs ← jsOr (getProp raw "mahasiswa") (.ok (.obj []))
  let status ←
    jsOr (jsOr (jsOr (jsOr (getProp raw "status") (getProp raw "keterangan_status"))
      (getProp raw "status_proses")) (getProp raw "ket_status")) (.ok .null)
  let judulProdi ←
    jsOr (jsOr (jsOr (jsOr (getProp raw "judul_tugas_akhir_program_studi")
      (getProp raw "judul_tugas_akhir")) (getProp raw "judul_usulan")) (getProp raw "judul"))
      (.ok .null)
  let jenisJalur ←
    jsOr (jsOr (jsOr (jsOr (getProp raw "jenis_jalur") (getProp raw "jalur"))
      (getProp raw "jenis_tugas_akhir")) (getProp raw "program")) (.ok .null)
  let nim ← jsOr (jsOr (getProp mhs "nim") (getProp raw "nim")) (.ok .null)
  let nama ← jsOr (jsOr (getProp mhs "nama") (getProp raw "nama")) (.ok .null) >>= cleanText
  let judul_indonesia ←
    jsOr (jsOr (jsOr (getProp raw "judul_indonesia") (getProp raw "judul_id"))
      (getProp raw "judul_bahasa_indonesia")) (.ok .null) >>= cleanText
  let judul_inggris ←
    jsOr (jsOr (jsOr (getProp raw "judul_inggris") (getProp raw "judul_en"))
      (getProp raw "judul_bahasa_inggris")) (.ok .null) >>= cleanText
  let status ← cleanText status
  let judul_tugas_akhir_program_studi ← cleanText judulProdi
  let jenis_jalur ← cleanText jenisJalur
  return ⟨nim, nama, judul_indonesia, judul_inggris, status, judul_tugas_akhir_program_studi,
    jenis_jalur⟩

/-! ### Vocabulary for the statements about the normaliser -/

/-- Replace each maximal run of carriage-return/line-feed characters by one
space: the string is cut into its maximal runs of line breaks and its other
characters, and every run of line breaks becomes a single space. -/
def collapseLineBreakRuns (s : List Char) : List Char :=
  ((s.splitBy fun a b => isLineBreak a && isLineBreak b).map fun run =>
    if run.all isLineBreak then [' '] else run).flatten

/-- The cleaning rule in the words of the specification: collapse the runs of
line breaks, then trim. -/
def cleanSpec (s : String) : String :=
  ⟨jsTrim (collapseLineBreakRuns s.data)⟩

/-- Value found by following a path of keys; `undefined` when a step is
missing or is taken on something that is not an object. -/
def valueAt : JsVal → List String → JsVal
  | v, [] => v
  | .obj fields, k :: ks =>
    match fields.lookup k with
    | some w => valueAt w ks
    | none => .undefined
  | _, _ :: _ => .undefined

/-- A non-empty string value, if the value is one. -/
def nonEmptyString : JsVal → Option String
  | .str s => if s = "" then none else some s
  | _ => none

/-- Value of the first alias, in priority order, that holds a non-empty string. -/
def firstNonEmpty (raw : JsVal) (aliases : List (List String)) : Option String :=
  aliases.findSome? fun a => nonEmptyString (valueAt raw a)

/-- Value of the first alias, in priority order, that holds a truthy value;
`null` when there is none. -/
def firstTruthy (raw : JsVal) (aliases : List (List String)) : JsVal :=
  ((aliases.map (valueAt raw)).find? truthy).getD .null

def nimAliases : List (List String) := [["mahasiswa", "nim"], ["nim"]]
def namaAliases : List (List String) := [["mahasiswa", "nama"], ["nama"]]
def judulIndonesiaAliases : List (List String) :=
  [["judul_indonesia"], ["judul_id"], ["judul_bahasa_indonesia"]]
def judulInggrisAliases : List (List String) :=
  [["judul_inggris"], ["judul_en"], ["judul_bahasa_inggris"]]
def statusAliases : List (List String) :=
  [["status"], ["keterangan_status"], ["status_proses"], ["ket_status"]]
def judulProdiAliases : List (List String) :=
  [["judul_tugas_akhir_program_studi"], ["judul_tugas_akhir"], ["judul_usulan"], ["judul"]]
def jenisJalurAliases : List (List String) :=
  [["jenis_jalur"], ["jalur"], ["jenis_tugas_akhir"], ["program"]]

/-- Aliases of the six fields that go through `cleanText`. -/
def cleanedAliases : List (List (List String)) :=
  [namaAliases, judulIndonesiaAliases, judulInggrisAliases, statusAliases, judulProdiAliases,
    jenisJalurAliases]

/-- Field expected from the first non-empty alias, cleaned by `clean`. -/
def fieldOf (clean : String → String) (raw : JsVal) (aliases : List (List String)) : JsVal :=
  match firstNonEmpty raw aliases with
  | some s => .str (clean s)
  | none => .null

/-- First truthy value of a list, `null` when there is none. -/
def orVals (vs : List JsVal) : JsVal := (vs.find? truthy).getD .null

/-- A value that is a string or absent. -/
def isStringOrAbsent : JsVal → Bool
  | .undefined => true
  | .str _ => true
  | _ => false

/-- Every alias path read by `mapItem`. -/
def allAliases : List (List String) := nimAliases ++ cleanedAliases.flatten

/-- No leading and no trailing white space. -/
def noOuterWhiteSpace (t : List Char) : Bool :=
  (t.head?.all fun c => !isJsWhiteSpace c) && (t.getLast?.all fun c => !isJsWhiteSpace c)

/-- No carriage return and no line feed. -/
def noLineBreak (t : List Char) : Bool := t.all fun c => !isLineBreak c

/-- The property claimed of every field: `null`, or a non-empty string without
leading or trailing white space and without line breaks. -/
def isCleanField : JsVal → Bool
  | .null => true
  | .str s => s != "" && noOuterWhiteSpace s.data && noLineBreak s.data
  | _ => false

/-- What holds of a cleaned field: `null`, or a string without leading or
trailing white space and without line breaks. -/
def isTrimmedField : JsVal → Bool
  | .null => true
  | .str s => noOuterWhiteSpace s.data && noLineBreak s.data
  | _ => false

/-- What holds of `nim`: `null` or a non-empty string. -/
def isNonEmptyStringOrNull : JsVal → Bool
  | .null => true
  | .str s => s != ""
  | _ => false

/-- What holds of a cleaned field `v` computed from the aliases `A`: it is
trimmed, and it has the full claimed property unless its winning alias value
consists of white space only. -/
def CleanedOutcome (raw : JsVal) (A : List (List String)) (v : JsVal) : Prop :=
  isTrimmedField v = true ∧
  ((∀ s, firstNonEmpty raw A = some s → s.data.any (fun c => !isJsWhiteSpace c) = true) →
    isCleanField v = true)

/-! ## `buildNextUrl` (index.js 25-38) -/

/-- Whether `sub` starts the list `s`. -/
def startsWith : List Char → List Char → Bool
  | _, [] => true
  | [], _ :: _ => false
  | c :: cs, p :: ps => c == p && startsWith cs ps

/-- The method `String.prototype.includes`: `sub` occurs at some position of `s`. -/
def jsIncludes : List Char → List Char → Bool
  | [], sub => startsWith [] sub
  | c :: cs, sub => startsWith (c :: cs) sub || jsIncludes cs sub

/-- The callback of `order_by.map` (index.js 27-29):
`String(v).includes('|') || String(v).includes('%7C') ? v : v + '|desc'`. -/
def normalizeOrderBy (v : String) : String :=
  if jsIncludes v.data ['|'] || jsIncludes v.data ['%', '7', 'C'] then v
  else ⟨v.data ++ ['|', 'd', 'e', 's', 'c']⟩

/-- The list of name-value pairs held by a `URLSearchParams` object. -/
abbrev Params := List (String × String)

/-- The method `URLSearchParams.prototype.set`: the first pair named `name`
takes the value and the other pairs of that name are removed; without such a
pair a new one is added at the end. -/
def paramsSet (ps : Params) (name value : String) : Params :=
  if ps.any (fun p => p.1 == name) then
    (ps.takeWhile fun p => p.1 != name) ++ (name, value) ::
      ((ps.dropWhile fun p => p.1 != name).drop 1).filter fun p => p.1 != name
  else ps ++ [(name, value)]

/-- The method `URLSearchParams.prototype.append`. -/
def paramsAppend (ps : Params) (name value : String) : Params :=
  ps ++ [(name, value)]

/-- UTF-8 encoding of a string. -/
def utf8 (s : String) : List UInt8 := s.data.flatMap String.utf8EncodeChar

/-- Bytes left as they are by the `application/x-www-form-urlencoded`
serialiser: ASCII letters and digits, `*`, `-`, `.` and `_`. -/
def isUrlencodedSafe (b : UInt8) : Bool :=
  (0x30 ≤ b.toNat && b.toNat ≤ 0x39) || (0x41 ≤ b.toNat && b.toNat ≤ 0x5A) ||
  (0x61 ≤ b.toNat && b.toNat ≤ 0x7A) ||
  b.toNat == 0x2A || b.toNat == 0x2D || b.toNat == 0x2E || b.toNat == 0x5F

/-- Upper-case hexadecimal digit of a value below 16. -/
def hexDigit (n : Nat) : Char :=
  if n < 10 then Char.ofNat (0x30 + n) else Char.ofNat (0x41 + (n - 10))

/-- Serialisation of one byte: a space becomes `+`, a safe byte stays, any
other byte is percent-encoded. -/
def encodeByte (b : UInt8) : List Char :=
  if b.toNat == 0x20 then ['+']
  else if isUrlencodedSafe b then [Char.ofNat b.toNat]
  else ['%', hexDigit (b.toNat / 16), hexDigit (b.toNat % 16)]

/-- Serialisation of a name or a value. -/
def urlencode (s : String) : List Char := (utf8 s).flatMap encodeByte

/-- The method `URLSearchParams.prototype.toString`: the pairs as `name=value`,
joined by `&`. -/
def serializeParams (ps : Params) : List Char :=
  List.intercalate ['&'] (ps.map fun p => urlencode p.1 ++ '=' :: urlencode p.2)

/-- A value of `page`, `limit` or `offset`: a number (the defaults are numbers)
or a string (the `/scrape` handler passes the query strings). -/
inductive QueryValue where
  | num (x : JsNum)
  | str (s : String)
deriving DecidableEq

/-- Value of a string of decimal digits. -/
def digitsValue (cs : List Char) : Nat :=
  cs.foldl (fun n c => 10 * n + (c.toNat - 48)) 0

/-- The conversion `Number(v)`: a number is itself, a non-empty string of
decimal digits is the double nearest to its value. Other strings are outside
the model (`none`). -/
def jsNumber : QueryValue → Option JsNum
  | .num x => some x
  | .str s =>
    if s.data ≠ [] ∧ s.data.all Char.isDigit = true then
      some (roundDyadic (digitsValue s.data) 0)
    else none

/-- The conversion `String(x)` of a number: `NaN`, the infinities, and the
decimal numeral of an integer of absolute value below `10 ^ 21`. Other numbers
(fractions, integers from `10 ^ 21` on, which print with an exponent) are
outside the model (`none`). -/
def numberToString : JsNum → Option String
  | .nan => some "NaN"
  | .posInf => some "Infinity"
  | .negInf => some "-Infinity"
  | .fin m k =>
    if k = 0 ∧ m.natAbs < 10 ^ 21 then
      some (if m < 0 then "-" ++ toString m.natAbs else toString m.natAbs)
    else none

/-- The conversion `String(v)`: a string is itself. -/
def jsString : QueryValue → Option String
  | .num x => numberToString x
  | .str s => some s

/-- The function `buildNextUrl` (index.js 25-38), called with the destructured
`page`, `limit`, `offset` and `order_by`. The result is `none` when a
conversion is outside the model. -/
def buildNextUrl (baseUrl : String) (page limit offset : QueryValue) (order_by : List String) :
    Option String := do
  let nextOffset := jsAdd (← jsNumber offset) (← jsNumber limit)
  let qb := order_by.map normalizeOrderBy
  let params : Params := []
  let params := paramsSet params "offset" (← numberToString nextOffset)
  let params := paramsSet params "limit" (← jsString limit)
  let params := paramsSet params "/api/v1/TA-pengajuan-tugas-akhir-detail" ""
  let params := paramsSet params "page" (← jsString page)
  let params := qb.foldl (fun ps v => paramsAppend ps "order_by[]" v) params
  return baseUrl ++ "?" ++ String.mk (serializeParams params)

/-! ### Vocabulary for the statements about `buildNextUrl` -/

/-- Value of a hexadecimal digit. -/
def hexVal (c : Char) : Option Nat :=
  if '0' ≤ c ∧ c ≤ '9' then some (c.toNat - 0x30)
  else if 'A' ≤ c ∧ c ≤ 'F' then some (c.toNat - 0x41 + 10)
  else if 'a' ≤ c ∧ c ≤ 'f' then some (c.toNat - 0x61 + 10)
  else none

/-- Replace every `+` by a space. -/
def plusToSpace (s : List Char) : List Char := s.map fun c => if c = '+' then ' ' else c

/-- Percent-decoding: `%` followed by two hexadecimal digits is the byte they
denote, any other character stands for its UTF-8 bytes. -/
def percentDecode : List Char → List UInt8
  | [] => []
  | c :: h :: l :: rest =>
    if c = '%' then
      match hexVal h, hexVal l with
      | some a, some d => UInt8.ofNat (16 * a + d) :: percentDecode rest
      | _, _ => 0x25 :: percentDecode (h :: l :: rest)
    else String.utf8EncodeChar c ++ percentDecode (h :: l :: rest)
  | c :: rest => String.utf8EncodeChar c ++ percentDecode rest

/-- Decoding of a query string (the `application/x-www-form-urlencoded` parser):
split at `&`, drop empty pieces, split each piece at its first `=`, turn `+`
into a space and percent-decode name and value. -/
def parseQuery (q : List Char) : List (List UInt8 × List UInt8) :=
  ((q.splitOn '&').filter fun piece => !piece.isEmpty).map fun piece =>
    (percentDecode (plusToSpace (piece.takeWhile fun c => c != '=')),
      percentDecode (plusToSpace ((piece.dropWhile fun c => c != '=').drop 1)))

/-- The order-by rule of the code: an entry that contains `|` or the literal
`%7C` is kept, any other entry gets `|desc` appended. -/
def orderEntry (v : String) : String :=
  if '|' ∈ v.data ∨ ['%', '7', 'C'] <:+: v.data then v else v ++ "|desc"

/-- The order-by rule as claimed, with the hexadecimal digit of `%7C` read
case-insensitively. -/
def orderEntryAnyCase (v : String) : String :=
  if '|' ∈ v.data ∨ ['%', '7', 'C'] <:+: v.data ∨ ['%', '7', 'c'] <:+: v.data then v
  else v ++ "|desc"

/-- The parameters the query string is expected to decode to, given the
strings printed for offset + limit, limit and page and the rule for order-by
entries. -/
def expectedParams (rule : String → String) (page limit nextOffset : String)
    (order_by : List String) : Params :=
  [("offset", nextOffset), ("limit", limit),
    ("/api/v1/TA-pengajuan-tugas-akhir-detail", ""), ("page", page)] ++
  order_by.map fun v => ("order_by[]", rule v)

/-- Check on one byte used in the round-trip proof: its serialisation is one
character other than `%`, `&` and `=` that decodes to the byte, or `%` and two
hexadecimal digits that denote the byte. -/
def encodedByteOk (b : UInt8) : Bool :=
  match plusToSpace (encodeByte b), encodeByte b with
  | [c], [e] => c != '%' && e != '&' && e != '=' && String.utf8EncodeChar c == [b]
  | [p, h, l], [_, _, _] =>
    p == '%' && h != '&' && h != '=' && l != '&' && l != '=' &&
    (match hexVal h, hexVal l with
      | some a, some d => UInt8.ofNat (16 * a + d) == b
      | _, _ => false)
  | _, _ => false

/-! # Lemmas and theorems -/

/-! ### JavaScript numbers: auxiliary facts -/

theorem lt_ceilNat_iff (n : Nat) (m : Int) (k : Nat) :
    n < ceilNat m k ↔ (n : Int) * 2 ^ k < m := by
  unfold ceilNat
  have hd : 0 < 2 ^ k := Nat.pow_pos (by decide)
  rw [Nat.lt_iff_add_one_le, Nat.le_div_iff_mul_le hd, Nat.succ_mul]
  rcases Int.lt_or_le m 0 with hm | hm
  · have h0 : m.toNat = 0 := Int.toNat_eq_zero.mpr (Int.le_of_lt hm)
    rw [h0]
    constructor
    · intro h; omega
    · intro h
      have : (0 : Int) ≤ (n : Int) * 2 ^ k := by positivity
      omega
  · obtain ⟨M, rfl⟩ := Int.eq_ofNat_of_zero_le hm
    rw [Int.toNat_ofNat]
    have hc : ((n : Int) * 2 ^ k < (M : Int)) ↔ n * 2 ^ k < M := by
      rw [← Nat.cast_ofNat (R := Int), ← Nat.cast_pow, ← Nat.cast_mul, Nat.cast_lt]
    rw [hc]
    omega

theorem natLt_fin (n : Nat) (m : Int) (k : Nat) :
    natLt n (.fin m k) = decide (n < ceilNat m k) := by
  simp only [natLt, lt_ceilNat_iff]

theorem natGe_fin (n : Nat) (m : Int) (k : Nat) :
    natGe n (.fin m k) = decide (ceilNat m k ≤ n) := by
  simp only [natGe]
  rw [decide_eq_decide, ← not_lt, ← not_lt (a := n), lt_ceilNat_iff]

theorem ceilNat_natCast (n : Nat) : ceilNat (n : Int) 0 = n := by
  simp [ceilNat]

theorem halvings_spec : ∀ (fuel n : Nat), n ≤ fuel → 1 ≤ n →
    2 ^ halvings fuel n ≤ n ∧ n < 2 ^ (halvings fuel n + 1) := by
  intro fuel
  induction fuel with
  | zero => intro n h1 h2; omega
  | succ fuel ih =>
    intro n h1 h2
    unfold halvings
    by_cases hn : n < 2
    · rw [if_pos hn]
      have : n = 1 := by omega
      subst this
      decide
    · rw [if_neg hn]
      have h := ih (n / 2) (by omega) (by omega)
      have hdm := Nat.div_add_mod n 2
      have hm := Nat.mod_lt n (show 2 > 0 by decide)
      rw [Nat.pow_succ, Nat.pow_succ]
      omega

theorem floorLog2_spec (n : Nat) (h : 1 ≤ n) :
    2 ^ floorLog2 n ≤ n ∧ n < 2 ^ (floorLog2 n + 1) :=
  halvings_spec n n (Nat.le_refl n) h

theorem floorLog2_lt (n b : Nat) (h : 1 ≤ n) (hb : n < 2 ^ b) : floorLog2 n < b := by
  by_contra hlt
  have h1 := (floorLog2_spec n h).1
  have h2 : 2 ^ b ≤ 2 ^ floorLog2 n := Nat.pow_le_pow_right (by decide) (by omega)
  omega

/-- Integers below `2 ^ 53` are doubles: rounding leaves them unchanged. -/
theorem roundDyadic_natCast (s : Nat) (hs : s < 2 ^ 53) :
    roundDyadic (s : Int) 0 = .ofNat s := by
  unfold roundDyadic
  by_cases h0 : (s : Int) = 0
  · rw [if_pos h0]
    have : s = 0 := by exact_mod_cast h0
    subst this
    rfl
  · rw [if_neg h0]
    have hpos : 1 ≤ s := by
      rcases Nat.eq_zero_or_pos s with h | h
      · subst h; exact absurd rfl h0
      · exact h
    have hL := floorLog2_lt s 53 hpos hs
    have hspos : (0 : Int) < (s : Int) := by exact_mod_cast hpos
    simp only [Int.natAbs_ofNat, Nat.cast_zero, sub_zero, zero_add, hspos, if_true]
    have hmax : max (floorLog2 s : Int) (-1022) = (floorLog2 s : Int) := by
      apply max_eq_left; omega
    rw [hmax]
    have hu : (floorLog2 s : Int) - 52 ≤ 0 := by omega
    rw [if_pos hu]
    have hneg : (-((floorLog2 s : Int) - 52)).toNat = 52 - floorLog2 s := by omega
    rw [hneg]
    by_cases hz : (0 : Int) ≤ (floorLog2 s : Int) - 52
    · have hL52 : floorLog2 s = 52 := by omega
      rw [if_pos hz]
      have hto : ((floorLog2 s : Int) - 52).toNat = 0 := by omega
      rw [hto, hL52]
      simp only [Nat.sub_self, Nat.pow_zero, Nat.mul_one, Nat.add_zero]
      rw [hL52]
      simp [JsNum.ofNat]
    · rw [if_neg hz]
      have hd : 0 < 2 ^ (52 - floorLog2 s) := Nat.pow_pos (by decide)
      have hg : Nat.gcd (s * 2 ^ (52 - floorLog2 s)) (2 ^ (52 - floorLog2 s))
          = 2 ^ (52 - floorLog2 s) := Nat.gcd_mul_left_left _ _
      rw [hg, Nat.mul_div_cancel _ hd, Nat.div_self hd]
      rfl

theorem jsAdd_ofNat (a b : Nat) (h : a + b < 2 ^ 53) :
    jsAdd (.ofNat a) (.ofNat b) = .ofNat (a + b) := by
  have := roundDyadic_natCast (a + b) h
  simpa [jsAdd, JsNum.ofNat] using this

/-! ### The loop: auxiliary facts -/

theorem pushBatch_posInf {α : Type} (c b : List α) : pushBatch .posInf c b = c ++ b := by
  induction b generalizing c with
  | nil => simp [pushBatch]
  | cons x xs ih =>
    unfold pushBatch
    simp only [natGe, Bool.false_eq_true, if_false]
    rw [ih]
    simp

theorem pushBatch_fin {α : Type} (m : Int) (k : Nat) (c b : List α) :
    pushBatch (.fin m k) c b = c ++ b.take (ceilNat m k - c.length) := by
  induction b generalizing c with
  | nil => simp [pushBatch]
  | cons x xs ih =>
    unfold pushBatch
    rw [natGe_fin]
    by_cases h : ceilNat m k ≤ c.length
    · have : ceilNat m k - c.length = 0 := by omega
      simp [h, this]
    · simp only [h, decide_False, Bool.false_eq_true, if_false]
      rw [ih]
      have : ceilNat m k - c.length = (ceilNat m k - (c ++ [x]).length) + 1 := by
        simp; omega
      rw [this]
      simp

/-- While the target is unmet, nothing has been cut off. -/
theorem takeUpTo_of_unmet {α : Type} (target : JsNum) (F : List α)
    (h : natLt (takeUpTo target F).length target = true) :
    takeUpTo target F = F ∧ natLt F.length target = true := by
  cases target with
  | nan => simp [natLt] at h
  | negInf => simp [natLt] at h
  | posInf => exact ⟨rfl, rfl⟩
  | fin m k =>
    simp only [takeUpTo, natLt_fin, List.length_take, decide_eq_true_eq] at h ⊢
    have hlen : F.length < ceilNat m k := by omega
    exact ⟨List.take_of_length_le (Nat.le_of_lt hlen), hlen⟩

/-- One run of the inner loop extends the collected prefix. -/
theorem pushBatch_takeUpTo {α : Type} (target : JsNum) (F b : List α)
    (h : natLt F.length target = true) :
    pushBatch target F b = takeUpTo target (F ++ b) := by
  cases target with
  | nan => simp [natLt] at h
  | negInf => simp [natLt] at h
  | posInf => exact pushBatch_posInf F b
  | fin m k =>
    rw [natLt_fin, decide_eq_true_eq] at h
    rw [pushBatch_fin]
    simp only [takeUpTo]
    rw [List.take_append_eq_append_take, List.take_of_length_le (Nat.le_of_lt h)]

theorem fetched_succ {α : Type} (src : Batches α) (ob : List String) (p s : JsNum) (n : Nat) :
    fetched src ob p s (n + 1) = fetched src ob p s n ++ batchAt src ob p s n := by
  simp [fetched, List.range_succ]

theorem callLog_succ {α : Type} (src : Batches α) (ob : List String) (p s : JsNum) (n : Nat) :
    callLog src ob p s (n + 1) =
      callLog src ob p s n ++ [⟨argsAt ob p s n, batchAt src ob p s n⟩] := by
  simp [callLog, List.range_succ]

theorem paginate_exit {α : Type} (src : Batches α) (ob : List String) (target p s : JsNum) :
    ∀ (fuel : Nat) (st : LoopState α), AtHead src ob target p s st →
      st.attempts ≤ MAX_REQUESTS → MAX_REQUESTS - st.attempts ≤ fuel →
      ∃ out, paginate (okSource src) ob target p fuel st = .ok out ∧
        AtExit src ob target p s out := by
  intro fuel
  induction fuel with
  | zero =>
    intro st h hle hf
    have hat : st.attempts = MAX_REQUESTS := by omega
    exact ⟨st, rfl, hle, h.calls_eq, h.collected_eq, fun i hi => h.full i (by omega), h.unmet,
      Or.inr (Or.inl hat)⟩
  | succ fuel ih =>
    intro st h hle hf
    unfold paginate
    by_cases hc : natLt st.collected.length target = true ∧ st.attempts < MAX_REQUESTS
    · rw [if_pos hc]
      have hargs : (⟨.ofNat 1, p, st.offset, ob⟩ : FetchArgs) = argsAt ob p s st.attempts := by
        simp [argsAt, h.offset_eq]
      have hbatch : okSource src st.attempts (argsAt ob p s st.attempts)
          = .ok (batchAt src ob p s st.attempts) := rfl
      simp only [hargs]
      simp only [hbatch]
      have hun := hc.1
      rw [h.collected_eq] at hun
      obtain ⟨hcolF, hlt⟩ := takeUpTo_of_unmet target _ hun
      have hcol : st.collected = fetched src ob p s st.attempts := by
        rw [h.collected_eq]; exact hcolF
      have hunmet : ∀ j, j < st.attempts + 1 →
          natLt (fetched src ob p s j).length target = true := by
        intro j hj
        rcases Nat.lt_succ_iff_lt_or_eq.mp hj with h1 | h1
        · exact h.unmet j h1
        · rw [h1]; exact hlt
      have hcalls : st.calls ++ [⟨argsAt ob p s st.attempts, batchAt src ob p s st.attempts⟩]
          = callLog src ob p s (st.attempts + 1) := by
        rw [callLog_succ, h.calls_eq]
      have hpush : pushBatch target st.collected (batchAt src ob p s st.attempts)
          = takeUpTo target (fetched src ob p s (st.attempts + 1)) := by
        rw [hcol, pushBatch_takeUpTo target _ _ hlt, fetched_succ]
      by_cases he : (batchAt src ob p s st.attempts).length = 0
      · rw [if_pos he]
        have hnil : batchAt src ob p s st.attempts = [] := List.length_eq_zero.mp he
        refine ⟨_, rfl, by simpa using hc.2, hcalls, ?_, ?_, hunmet, ?_⟩
        · show st.collected = _
          rw [fetched_succ, hnil, List.append_nil]; exact h.collected_eq
        · intro i hi; exact h.full i (by simpa using hi)
        · exact Or.inr (Or.inr ⟨Nat.succ_pos _, Or.inl (by simpa using hnil)⟩)
      · rw [if_neg he]
        by_cases hs : natLt (batchAt src ob p s st.attempts).length p = true
        · rw [if_pos hs]
          refine ⟨_, rfl, by simpa using hc.2, hcalls, hpush, ?_, hunmet, ?_⟩
          · intro i hi; exact h.full i (by simpa using hi)
          · exact Or.inr (Or.inr ⟨Nat.succ_pos _, Or.inr (by simpa using hs)⟩)
        · rw [if_neg hs]
          apply ih
          · refine ⟨hcalls, ?_, hpush, ?_, hunmet⟩
            · show jsAdd st.offset p = offsetAt p s (st.attempts + 1)
              rw [h.offset_eq]; rfl
            · intro i hi
              rcases Nat.lt_succ_iff_lt_or_eq.mp hi with h1 | h1
              · exact h.full i h1
              · rw [h1]
                exact ⟨by simpa using hs, fun hn => he (by rw [hn]; rfl)⟩
          · exact hc.2
          · show MAX_REQUESTS - (st.attempts + 1) ≤ fuel
            omega
    · rw [if_neg hc]
      refine ⟨st, rfl, hle, h.calls_eq, h.collected_eq, fun i hi => h.full i (by omega),
        h.unmet, ?_⟩
      rcases not_and_or.mp hc with h1 | h1
      · exact Or.inl (by simpa using h1)
      · exact Or.inr (Or.inl (by omega))

theorem atHead_init {α : Type} (src : Batches α) (ob : List String) (target p s : JsNum) :
    AtHead src ob target p s (⟨[], 0, s, []⟩ : LoopState α) :=
  ⟨by simp [callLog], rfl, by cases target <;> simp [fetched, takeUpTo],
    fun i hi => absurd hi (Nat.not_lt_zero i), fun j hj => absurd hj (Nat.not_lt_zero j)⟩

theorem saveCsvAuto_exit {α : Type} (src : Batches α) (ob : List String)
    (targetQ perPageQ startQ : JsNum) :
    ∃ out, saveCsvAuto (okSource src) ob targetQ perPageQ startQ = .ok out ∧
      AtExit src ob (jsMax (.ofNat 1) targetQ) (jsMax (.ofNat 1) perPageQ)
        (jsMax (.ofNat 0) startQ) out :=
  paginate_exit src ob _ _ _ MAX_REQUESTS _ (atHead_init src ob _ _ _)
    (Nat.zero_le _) (Nat.le_refl _)

/-- The iteration bound of `paginate` is never what ends a run: any bound of at
least `MAX_REQUESTS - attempts` gives the same result, for every upstream. -/
theorem paginate_fuel {α : Type} (fetchMika : Upstream α) (ob : List String)
    (target p : JsNum) :
    ∀ (fuel extra : Nat) (st : LoopState α), MAX_REQUESTS - st.attempts ≤ fuel →
      paginate fetchMika ob target p (fuel + extra) st = paginate fetchMika ob target p fuel st := by
  intro fuel
  induction fuel with
  | zero =>
    intro extra st hf
    cases extra with
    | zero => rfl
    | succ e =>
      have hn : ¬ (natLt st.collected.length target = true ∧ st.attempts < MAX_REQUESTS) := by
        intro hc; omega
      show paginate fetchMika ob target p (0 + (e + 1)) st = .ok st
      rw [Nat.zero_add]
      unfold paginate
      rw [if_neg hn]
  | succ fuel ih =>
    intro extra st hf
    have hadd : fuel + 1 + extra = (fuel + extra) + 1 := by omega
    rw [hadd, paginate, paginate]
    by_cases hc : natLt st.collected.length target = true ∧ st.attempts < MAX_REQUESTS
    · simp only [if_pos hc]
      split
      · rfl
      · split
        · rfl
        · split
          · rfl
          · apply ih
            show MAX_REQUESTS - (st.attempts + 1) ≤ fuel
            omega
    · simp only [if_neg hc]

theorem callLog_length {α : Type} (src : Batches α) (ob : List String) (p s : JsNum) (n : Nat) :
    (callLog src ob p s n).length = n := by
  simp [callLog]

theorem callLog_batches {α : Type} (src : Batches α) (ob : List String) (p s : JsNum)
    (n : Nat) :
    ((callLog src ob p s n).map Call.batch).flatten = fetched src ob p s n := by
  simp [callLog, fetched, List.map_map, Function.comp_def]

theorem callLog_take {α : Type} (src : Batches α) (ob : List String) (p s : JsNum)
    {m n : Nat} (h : m ≤ n) :
    (callLog src ob p s n).take m = callLog src ob p s m := by
  induction h with
  | refl => rw [List.take_of_length_le]; simp [callLog_length]
  | step hmn ih =>
    rw [callLog_succ, List.take_append_of_le_length (by simpa [callLog_length] using hmn), ih]

theorem callLog_getElem? {α : Type} (src : Batches α) (ob : List String) (p s : JsNum)
    (n i : Nat) (h : i < n) :
    (callLog src ob p s n)[i]? = some ⟨argsAt ob p s i, batchAt src ob p s i⟩ := by
  simp [callLog, List.getElem?_map, List.getElem?_range h]

theorem take_min_of_length_le {α : Type} (X : List α) (a b : Nat) (h : X.length ≤ b) :
    X.take (min a b) = X.take a := by
  by_cases hab : a ≤ b
  · rw [Nat.min_eq_left hab]
  · have hba : b ≤ a := by omega
    rw [Nat.min_eq_right hba, List.take_of_length_le h, List.take_of_length_le (by omega)]

theorem offsetAt_ofNat (P S : Nat) (h : S + MAX_REQUESTS * P < 2 ^ 53) :
    ∀ i, i ≤ MAX_REQUESTS → offsetAt (.ofNat P) (.ofNat S) i = .ofNat (S + i * P) := by
  intro i
  induction i with
  | zero => intro _; simp [offsetAt]
  | succ i ih =>
    intro hi
    have hle : S + (i + 1) * P ≤ S + MAX_REQUESTS * P :=
      Nat.add_le_add_left (Nat.mul_le_mul_right P hi) S
    rw [offsetAt, ih (by omega), jsAdd_ofNat _ _ (by rw [Nat.succ_mul] at hle; omega),
      Nat.succ_mul, Nat.add_assoc]

theorem batchAt_windowSource {α : Type} (L : List α) (ob : List String) (P S : Nat)
    (h : S + MAX_REQUESTS * P < 2 ^ 53) (i : Nat) (hi : i ≤ MAX_REQUESTS) :
    batchAt (windowSource L) ob (.ofNat P) (.ofNat S) i = (L.drop (S + i * P)).take P := by
  have ho := offsetAt_ofNat P S h i hi
  simp only [batchAt, argsAt, windowSource]
  rw [ho]
  simp only [JsNum.ofNat, Nat.max_self, Nat.sub_self, pow_zero, mul_one, ceilNat_natCast]
  have hf : floorNat ((↑(S + i * P) : Int) + (P : Int)) 0 = S + i * P + P := by
    have hc : ((↑(S + i * P) : Int) + (P : Int)) = ((S + i * P + P : Nat) : Int) := by
      push_cast; ring
    rw [hc]
    unfold floorNat
    rw [Int.toNat_ofNat, pow_zero, Nat.div_one]
  rw [hf, Nat.add_sub_cancel_left]

theorem fetched_windowSource {α : Type} (L : List α) (ob : List String) (P S : Nat)
    (h : S + MAX_REQUESTS * P < 2 ^ 53) :
    ∀ n, n ≤ MAX_REQUESTS →
      fetched (windowSource L) ob (.ofNat P) (.ofNat S) n = (L.drop S).take (n * P) := by
  intro n
  induction n with
  | zero => intro _; simp [fetched]
  | succ n ih =>
    intro hn
    rw [fetched_succ, ih (by omega), batchAt_windowSource L ob P S h n (by omega), Nat.succ_mul,
      List.take_add, List.drop_drop]

theorem fetched_length_of_full {α : Type} (src : Batches α) (ob : List String) (p s : JsNum)
    (P : Nat) (hsrc : ∀ i a, (src i a).length = P) (n : Nat) :
    (fetched src ob p s n).length = n * P := by
  induction n with
  | zero => simp [fetched]
  | succ n ih =>
    rw [fetched_succ, List.length_append, ih, Nat.succ_mul]
    simp [batchAt, hsrc]

theorem fetched_append_of_le {α : Type} (src : Batches α) (ob : List String) (p s : JsNum)
    {m n : Nat} (h : m ≤ n) :
    ∃ r, fetched src ob p s n = fetched src ob p s m ++ r := by
  induction h with
  | refl => exact ⟨[], by simp⟩
  | step _ ih =>
    obtain ⟨r, hr⟩ := ih
    exact ⟨r ++ batchAt src ob p s _, by rw [fetched_succ, hr, List.append_assoc]⟩

theorem ceil_mul_ge (t p : Nat) (hp : 1 ≤ p) : t ≤ ((t + p - 1) / p) * p := by
  have h1 := Nat.div_add_mod (t + p - 1) p
  have h2 := Nat.mod_lt (t + p - 1) (show p > 0 by omega)
  have h3 : p * ((t + p - 1) / p) = ((t + p - 1) / p) * p := Nat.mul_comm _ _
  omega

theorem attempts_of_full {α : Type} (src : Batches α) (ob : List String)
    (m : Int) (k P : Nat) (s : JsNum) (ht : 1 ≤ ceilNat m k) (hp : 1 ≤ P)
    (hcap : (ceilNat m k + P - 1) / P ≤ MAX_REQUESTS)
    (hsrc : ∀ i a, (src i a).length = P) (st : LoopState α)
    (h : AtExit src ob (.fin m k) (.ofNat P) s st) :
    st.attempts = (ceilNat m k + P - 1) / P := by
  have hlen := fetched_length_of_full src ob (.ofNat P) s P hsrc
  have hcolLen : st.collected.length = min (ceilNat m k) (st.attempts * P) := by
    rw [h.collected_eq]
    simp only [takeUpTo, List.length_take, hlen]
  have hpos : 0 < st.attempts := by
    rcases h.stop with h1 | h1 | h1
    · rw [natLt_fin, decide_eq_false_iff_not, hcolLen] at h1
      rcases Nat.eq_zero_or_pos st.attempts with h0 | h0
      · rw [h0] at h1; simp at h1; omega
      · exact h0
    · rw [h1]; decide
    · exact h1.1
  obtain ⟨n, hn⟩ : ∃ n, st.attempts = n + 1 := ⟨st.attempts - 1, by omega⟩
  have hun : n * P < ceilNat m k := by
    have := h.unmet n (by omega)
    rwa [natLt_fin, decide_eq_true_eq, hlen] at this
  have hge : n + 1 ≤ (ceilNat m k + P - 1) / P := by
    rw [Nat.le_div_iff_mul_le (by omega), Nat.succ_mul]
    omega
  have hle : (ceilNat m k + P - 1) / P ≤ n + 1 := by
    rcases h.stop with h1 | h1 | h1
    · rw [natLt_fin, decide_eq_false_iff_not, hcolLen, hn, Nat.succ_mul] at h1
      have h2 : ceilNat m k ≤ n * P + P := by omega
      apply Nat.le_of_lt_succ
      rw [Nat.div_lt_iff_lt_mul (by omega), Nat.succ_mul, Nat.succ_mul]
      omega
    · rw [← hn, h1]; exact hcap
    · exfalso
      have hb : (batchAt src ob (.ofNat P) s (st.attempts - 1)).length = P := hsrc _ _
      rcases h1.2 with h2 | h2
      · rw [h2] at hb; simp at hb; omega
      · rw [hb] at h2
        simp [JsNum.ofNat, natLt] at h2
  omega

/-- Double addition on test values: `0.1 + 0.2` is `0.30000000000000004`
(`0.1` is 3602879701896397 / 2 ^ 55), `2.5 + 0.25 = 2.75`, a tie goes to the even
neighbour (`2 ^ 53 + 1` is `2 ^ 53`, `2 ^ 53 + 3` is `2 ^ 53 + 4`), and exact
sums are kept (`-1.5 + 1 = -0.5`). -/
theorem jsAdd_examples :
    jsAdd (.fin 3602879701896397 55) (.fin 3602879701896397 54) = .fin 1351079888211149 52 ∧
    jsAdd (.fin 5 1) (.fin 1 2) = .fin 11 2 ∧
    jsAdd (.ofNat (2 ^ 53)) (.ofNat 1) = .ofNat (2 ^ 53) ∧
    jsAdd (.ofNat (2 ^ 53)) (.ofNat 3) = .ofNat (2 ^ 53 + 4) ∧
    jsAdd (.fin (-3) 1) (.ofNat 1) = .fin (-1) 1 := by
  decide

/-- Double addition rounds from `2 ^ 53` on: `2 ^ 53 + 1` is `2 ^ 53`, so a run
started at offset `2 ^ 53` with `per_page = 1` sends the same offset again. -/
theorem offsetAt_rounds :
    jsAdd (.ofNat (2 ^ 53)) (.ofNat 1) = .ofNat (2 ^ 53) ∧
    offsetAt (.ofNat 1) (.ofNat (2 ^ 53)) 2 = .ofNat (2 ^ 53) := by
  decide

/-! ## Claims about the pagination loop -/

/-- C1 fails: with `target = 2.5` and `per_page = 2` (both accepted by
`Math.max(1, Number(...))`) and full batches, the test `collected.length >= target`
lets a third item in: 3 items are collected and `2.5 < 3`. -/
theorem C1_counterexample :
    saveCsvAuto (okSource fun i _ => [2 * i, 2 * i + 1]) [] (.fin 5 1) (.ofNat 2) (.ofNat 0) =
      .ok ⟨[0, 1, 2], 2, .ofNat 4,
        [⟨⟨.ofNat 1, .ofNat 2, .ofNat 0, []⟩, [0, 1]⟩,
          ⟨⟨.ofNat 1, .ofNat 2, .ofNat 2, []⟩, [2, 3]⟩]⟩ ∧
    jsMax (.ofNat 1) (.fin 5 1) = .fin 5 1 ∧
    exceeds ([0, 1, 2] : List Nat).length (.fin 5 1) = true :=
  ⟨by rfl, by decide, by decide⟩

/-- C1, amended: for every upstream source and all numbers `target`, `perPage`
and start offset, the loop returns; every logged call returned what the source
answers to it, and the collected sequence is the concatenation in call order of
the batches fetched, cut after `⌈target⌉` elements (not cut for `Infinity`): for
a finite target it is exactly the first `min ⌈target⌉ n` elements (`n` the total
length) and its length never exceeds `⌈target⌉`, which is `target` itself when
`target` is an integer. -/
theorem C1_collected_is_first_ceil_target_of_batches {α : Type} (src : Batches α)
    (order_by : List String) (targetQ perPageQ startQ : JsNum) :
    ∃ st, saveCsvAuto (okSource src) order_by targetQ perPageQ startQ = .ok st ∧
      (∀ i c, st.calls[i]? = some c → c.batch = src i c.args) ∧
      st.collected = takeUpTo (jsMax (.ofNat 1) targetQ) (st.calls.map Call.batch).flatten ∧
      (∀ m k, jsMax (.ofNat 1) targetQ = .fin m k →
        st.collected = ((st.calls.map Call.batch).flatten).take
          (min (ceilNat m k) ((st.calls.map Call.batch).flatten).length) ∧
        st.collected.length ≤ ceilNat m k) ∧
      (∀ T : Nat, jsMax (.ofNat 1) targetQ = .ofNat T →
        st.collected = ((st.calls.map Call.batch).flatten).take
          (min T ((st.calls.map Call.batch).flatten).length) ∧
        st.collected.length ≤ T) := by
  obtain ⟨st, hst, h⟩ := saveCsvAuto_exit src order_by targetQ perPageQ startQ
  have hcol : st.collected =
      takeUpTo (jsMax (.ofNat 1) targetQ) (st.calls.map Call.batch).flatten := by
    rw [h.calls_eq, callLog_batches]; exact h.collected_eq
  have hfin : ∀ m k, jsMax (.ofNat 1) targetQ = .fin m k →
      st.collected = ((st.calls.map Call.batch).flatten).take
        (min (ceilNat m k) ((st.calls.map Call.batch).flatten).length) ∧
      st.collected.length ≤ ceilNat m k := by
    intro m k hmk
    rw [hmk] at hcol
    simp only [takeUpTo] at hcol
    refine ⟨?_, ?_⟩
    · rw [take_min_of_length_le _ _ _ (Nat.le_refl _)]; exact hcol
    · rw [hcol, List.length_take]; exact Nat.min_le_left _ _
  refine ⟨st, hst, ?_, hcol, hfin, ?_⟩
  · intro i c hc
    rw [h.calls_eq] at hc
    have hi : i < st.attempts := by
      have := (List.getElem?_eq_some_iff.mp hc).1
      simpa [callLog_length] using this
    rw [callLog_getElem? _ _ _ _ _ _ hi] at hc
    cases hc
    rfl
  · intro T hT
    have := hfin (T : Int) 0 hT
    rwa [ceilNat_natCast] at this

/-- Witness of the amended C1: target = 3, per_page = 2 and full batches give
the first 3 of the 4 items fetched. -/
theorem C1_witness :
    ∃ st, saveCsvAuto (okSource fun i _ => [2 * i, 2 * i + 1]) []
        (.ofNat 3) (.ofNat 2) (.ofNat 0) = .ok st ∧
      st.collected = [0, 1, 2] ∧ st.collected.length ≤ 3 :=
  have ⟨st, hst, _, _, _, hT⟩ := C1_collected_is_first_ceil_target_of_batches
    (fun i _ => [2 * i, 2 * i + 1]) [] (.ofNat 3) (.ofNat 2) (.ofNat 0)
  have hval : saveCsvAuto (okSource fun i _ => [2 * i, 2 * i + 1]) []
      (.ofNat 3) (.ofNat 2) (.ofNat 0) =
      .ok ⟨[0, 1, 2], 2, .ofNat 4,
        [⟨⟨.ofNat 1, .ofNat 2, .ofNat 0, []⟩, [0, 1]⟩,
          ⟨⟨.ofNat 1, .ofNat 2, .ofNat 2, []⟩, [2, 3]⟩]⟩ := by rfl
  have hst2 := Except.ok.inj (hst.symm.trans hval)
  ⟨st, hst, by rw [hst2], (hT 3 (by decide)).2⟩

/-- C4: for every upstream source and all numbers `target`, `perPage` and start
offset, the loop returns after at most 50 upstream calls, and the reported
`attempts` equals the number of calls made. -/
theorem C4_at_most_fifty_calls {α : Type} (src : Batches α)
    (order_by : List String) (targetQ perPageQ startQ : JsNum) :
    ∃ st, saveCsvAuto (okSource src) order_by targetQ perPageQ startQ = .ok st ∧
      st.calls.length ≤ 50 ∧ st.attempts = st.calls.length := by
  obtain ⟨st, hst, h⟩ := saveCsvAuto_exit src order_by targetQ perPageQ startQ
  have hl : st.calls.length = st.attempts := by
    rw [h.calls_eq, callLog_length]
  exact ⟨st, hst, by rw [hl]; exact h.cap, hl.symm⟩

/-- C2 fails: with `target = 2.5` and `per_page = 1` (so ceil(target / perPage)
= 3 <= 50) and a source of one item per call, the loop returns 3 items, not
`target` items. -/
theorem C2_counterexample :
    saveCsvAuto (okSource fun i _ => [i]) [] (.fin 5 1) (.ofNat 1) (.ofNat 0) =
      .ok ⟨[0, 1, 2], 3, .ofNat 3,
        [⟨⟨.ofNat 1, .ofNat 1, .ofNat 0, []⟩, [0]⟩, ⟨⟨.ofNat 1, .ofNat 1, .ofNat 1, []⟩, [1]⟩,
          ⟨⟨.ofNat 1, .ofNat 1, .ofNat 2, []⟩, [2]⟩]⟩ ∧
    jsMax (.ofNat 1) (.fin 5 1) = .fin 5 1 ∧ jsMax (.ofNat 1) (.ofNat 1) = .ofNat 1 ∧
    JsNum.ofNat ([0, 1, 2] : List Nat).length ≠ .fin 5 1 ∧
    exceeds ([0, 1, 2] : List Nat).length (.fin 5 1) = true :=
  ⟨by rfl, by decide, by decide, by decide, by decide⟩

/-- C2, amended: for a finite target `m / 2 ^ k` with `⌈target⌉ >= 1`, an
integer perPage `P >= 1` with ceil(⌈target⌉ / P) <= 50 and any start offset, a
source that returns exactly `P` items on every call makes the loop return
exactly `⌈target⌉` items (`target` items when `target` is an integer), the first
`⌈target⌉` items of the stream of batches the source returns to the loop's calls
(however many of them are taken beyond the calls made), in exactly
ceil(⌈target⌉ / P) calls. -/
theorem C2_full_batches_reach_ceil_target {α : Type} (src : Batches α)
    (order_by : List String) (targetQ perPageQ startQ : JsNum) (m : Int) (k P : Nat)
    (htarget : jsMax (.ofNat 1) targetQ = .fin m k)
    (hperPage : jsMax (.ofNat 1) perPageQ = .ofNat P)
    (ht : 1 ≤ ceilNat m k) (hp : 1 ≤ P)
    (hcap : (ceilNat m k + P - 1) / P ≤ 50)
    (hsrc : ∀ i a, (src i a).length = P) :
    ∃ st, saveCsvAuto (okSource src) order_by targetQ perPageQ startQ = .ok st ∧
      st.collected.length = ceilNat m k ∧
      (∀ n, (ceilNat m k + P - 1) / P ≤ n →
        st.collected =
          (fetched src order_by (.ofNat P) (jsMax (.ofNat 0) startQ) n).take (ceilNat m k)) ∧
      st.attempts = (ceilNat m k + P - 1) / P ∧
      st.calls.length = (ceilNat m k + P - 1) / P := by
  obtain ⟨st, hst, h⟩ := saveCsvAuto_exit src order_by targetQ perPageQ startQ
  rw [htarget, hperPage] at h
  have hn := attempts_of_full src order_by m k P _ ht hp hcap hsrc st h
  have hlen := fetched_length_of_full src order_by (.ofNat P) (jsMax (.ofNat 0) startQ) P hsrc
  have hk := ceil_mul_ge (ceilNat m k) P hp
  have hcol : ∀ n, (ceilNat m k + P - 1) / P ≤ n →
      st.collected =
        (fetched src order_by (.ofNat P) (jsMax (.ofNat 0) startQ) n).take (ceilNat m k) := by
    intro n hmn
    obtain ⟨r, hr⟩ :=
      fetched_append_of_le src order_by (.ofNat P) (jsMax (.ofNat 0) startQ) hmn
    rw [hr, List.take_append_of_le_length (by rw [hlen]; exact hk), h.collected_eq, hn]
    rfl
  refine ⟨st, hst, ?_, hcol, hn, ?_⟩
  · rw [hcol _ (Nat.le_refl _), List.length_take, hlen]
    exact Nat.min_eq_left hk
  · rw [h.calls_eq, callLog_length, hn]

/-- Witness of C2: target = 30, perPage = 10 and a source of full batches give
30 items and 3 calls. -/
theorem C2_witness :
    ∃ st, saveCsvAuto (okSource fun i _ => List.replicate 10 i) []
        (.ofNat 30) (.ofNat 10) (.ofNat 0) = .ok st ∧
      st.collected.length = 30 ∧ st.attempts = 3 ∧ st.calls.length = 3 :=
  have ⟨st, hst, h1, _, h3, h4⟩ :=
    C2_full_batches_reach_ceil_target (fun i _ => List.replicate 10 i) []
      (.ofNat 30) (.ofNat 10) (.ofNat 0) 30 0 10 (by decide) (by decide)
      (by decide) (by decide) (by decide) (fun i _ => List.length_replicate 10 i)
  ⟨st, hst, h1, h3, h4⟩

/-- C3: the loop returns, without an error; and if its k-th upstream call (here
the call at index `k`, counted from 0, so the claim's k is `k + 1`) returned a
batch that is empty or shorter than perPage, that call is the last one made and
the result is the first `target` items (`⌈target⌉` for a fractional target, all
for `Infinity`) of the batches up to and including that call (up to but
excluding it when the batch is empty). This holds for all numbers `target`,
`perPage` and start offset. -/
theorem C3_short_batch_is_last_call {α : Type} (src : Batches α)
    (order_by : List String) (targetQ perPageQ startQ : JsNum) :
    ∃ st, saveCsvAuto (okSource src) order_by targetQ perPageQ startQ = .ok st ∧
      ∀ k c, st.calls[k]? = some c →
        (c.batch = [] ∨ natLt c.batch.length (jsMax (.ofNat 1) perPageQ) = true) →
        st.calls.length = k + 1 ∧ st.attempts = k + 1 ∧
        st.collected = takeUpTo (jsMax (.ofNat 1) targetQ)
          (((st.calls.take (k + 1)).map Call.batch).flatten) ∧
        (c.batch = [] →
          st.collected = takeUpTo (jsMax (.ofNat 1) targetQ)
            (((st.calls.take k).map Call.batch).flatten)) ∧
        (∀ T : Nat, jsMax (.ofNat 1) targetQ = .ofNat T →
          st.collected = (((st.calls.take (k + 1)).map Call.batch).flatten).take T ∧
          (c.batch = [] →
            st.collected = (((st.calls.take k).map Call.batch).flatten).take T)) := by
  obtain ⟨st, hst, h⟩ := saveCsvAuto_exit src order_by targetQ perPageQ startQ
  refine ⟨st, hst, ?_⟩
  intro k c hk hshort
  rw [h.calls_eq] at hk
  have hi : k < st.attempts := by
    have := (List.getElem?_eq_some_iff.mp hk).1
    simpa [callLog_length] using this
  rw [callLog_getElem? _ _ _ _ _ _ hi] at hk
  cases hk
  have hn : st.attempts = k + 1 := by
    by_contra hne
    have hf := h.full k (by omega)
    rcases hshort with h1 | h1
    · exact hf.2 h1
    · rw [hf.1] at h1; cases h1
  have hall : st.collected = takeUpTo (jsMax (.ofNat 1) targetQ)
      (((st.calls.take (k + 1)).map Call.batch).flatten) := by
    rw [h.calls_eq, hn, callLog_take _ _ _ _ (Nat.le_refl _), callLog_batches, h.collected_eq, hn]
  have hempty :
      batchAt src order_by (jsMax (.ofNat 1) perPageQ) (jsMax (.ofNat 0) startQ) k = [] →
      st.collected = takeUpTo (jsMax (.ofNat 1) targetQ)
        (((st.calls.take k).map Call.batch).flatten) := by
    intro he
    rw [h.calls_eq, hn, callLog_take _ _ _ _ (Nat.le_succ k), callLog_batches, h.collected_eq,
      hn, fetched_succ, he, List.append_nil]
  refine ⟨by rw [h.calls_eq, callLog_length, hn], hn, hall, fun he => hempty he, ?_⟩
  intro T hT
  have hT2 : ∀ l : List α, takeUpTo (jsMax (.ofNat 1) targetQ) l = l.take T := by
    intro l
    rw [hT]
    simp only [JsNum.ofNat, takeUpTo, ceilNat_natCast]
  exact ⟨by rw [← hT2]; exact hall, fun he => by rw [← hT2]; exact hempty he⟩

/-- Witness of C3: the third call returns an empty batch, target = 100 and
perPage = 10; the loop stops after 3 calls with 20 items. -/
theorem C3_witness :
    ∃ st, saveCsvAuto (okSource fun i _ => if i < 2 then List.replicate 10 i else [])
        [] (.ofNat 100) (.ofNat 10) (.ofNat 0) = .ok st ∧
      st.calls[2]? = some ⟨⟨.ofNat 1, .ofNat 10, .ofNat 20, []⟩, []⟩ ∧
      st.calls.length = 3 ∧ st.attempts = 3 ∧ st.collected.length ≤ 20 :=
  have ⟨st, hst, h⟩ := C3_short_batch_is_last_call
    (fun i _ => if i < 2 then List.replicate 10 i else []) []
    (.ofNat 100) (.ofNat 10) (.ofNat 0)
  have hval : saveCsvAuto (okSource fun i _ => if i < 2 then List.replicate 10 i else [])
      [] (.ofNat 100) (.ofNat 10) (.ofNat 0) =
      .ok ⟨List.replicate 10 0 ++ List.replicate 10 1, 3, .ofNat 20,
        [⟨⟨.ofNat 1, .ofNat 10, .ofNat 0, []⟩, List.replicate 10 0⟩,
          ⟨⟨.ofNat 1, .ofNat 10, .ofNat 10, []⟩, List.replicate 10 1⟩,
          ⟨⟨.ofNat 1, .ofNat 10, .ofNat 20, []⟩, []⟩]⟩ := by rfl
  have hst2 := Except.ok.inj (hst.symm.trans hval)
  have hk : st.calls[2]? = some ⟨⟨.ofNat 1, .ofNat 10, .ofNat 20, []⟩, []⟩ := by rw [hst2]; rfl
  have h3 := h 2 _ hk (Or.inl rfl)
  ⟨st, hst, hk, h3.1, h3.2.1, by rw [(h3.2.2.2.2 100 (by decide)).2 rfl, hst2]; decide⟩

/-- C10 fails: with `per_page = 2.5` the window at offset 0 holds the rows at
positions 0 and 1; 2 rows are fewer than 2.5, so the loop stops after one call
with 2 of the 10 rows, although target = 10 and `L` has not ended. -/
theorem C10_counterexample :
    saveCsvAuto (okSource (windowSource (List.range 10))) [] (.ofNat 10) (.fin 5 1) (.ofNat 0) =
      .ok ⟨[0, 1], 1, .fin 5 1, [⟨⟨.ofNat 1, .fin 5 1, .ofNat 0, []⟩, [0, 1]⟩]⟩ ∧
    jsMax (.ofNat 1) (.fin 5 1) = .fin 5 1 ∧
    ((List.range 10).drop 0).take 10 ≠ [0, 1] :=
  ⟨by rfl, by decide, by decide⟩

/-- C10, amended: for an integer perPage `P` and an integer start offset `S`
with `S + 50 * P < 2 ^ 53` (every offset is then computed exactly) and a finite
target, against an upstream that serves a fixed list `L` by offset/limit windows
the loop returns; its i-th call (i = 1, 2, ...) carries page 1, limit `P` and
offset `S + (i - 1) * P` and receives that window of `L`, and the result is
exactly the first `min ⌈target⌉ (50 * P)` elements of `L` after skipping `S`
elements (fewer only when `L` ends first). -/
theorem C10_window_source_offsets_and_result {α : Type} (L : List α)
    (order_by : List String) (targetQ perPageQ startQ : JsNum) (m : Int) (k P S : Nat)
    (htarget : jsMax (.ofNat 1) targetQ = .fin m k)
    (hperPage : jsMax (.ofNat 1) perPageQ = .ofNat P)
    (hstart : jsMax (.ofNat 0) startQ = .ofNat S)
    (hsafe : S + 50 * P < 2 ^ 53) :
    ∃ st, saveCsvAuto (okSource (windowSource L)) order_by targetQ perPageQ startQ = .ok st ∧
      (∀ i, 1 ≤ i → i ≤ st.calls.length →
        st.calls[i - 1]? =
          some ⟨⟨.ofNat 1, .ofNat P, .ofNat (S + (i - 1) * P), order_by⟩,
            (L.drop (S + (i - 1) * P)).take P⟩) ∧
      st.collected = (L.drop S).take (min (ceilNat m k) (50 * P)) := by
  obtain ⟨st, hst, h⟩ :=
    saveCsvAuto_exit (windowSource L) order_by targetQ perPageQ startQ
  rw [htarget, hperPage, hstart] at h
  have hcap : st.attempts ≤ MAX_REQUESTS := h.cap
  refine ⟨st, hst, ?_, ?_⟩
  · intro i h1 h2
    rw [h.calls_eq, callLog_length] at h2
    rw [h.calls_eq, callLog_getElem? _ _ _ _ _ _ (show i - 1 < st.attempts by omega)]
    have hi : i - 1 ≤ MAX_REQUESTS := by omega
    rw [batchAt_windowSource L order_by P S hsafe (i - 1) hi]
    simp only [argsAt, offsetAt_ofNat P S hsafe (i - 1) hi]
  · have hcol : st.collected = (L.drop S).take (min (ceilNat m k) (st.attempts * P)) := by
      rw [h.collected_eq, fetched_windowSource L order_by P S hsafe _ hcap]
      simp only [takeUpTo, List.take_take]
    have hmul : st.attempts * P ≤ 50 * P := Nat.mul_le_mul_right _ hcap
    have hend : (L.drop S).length ≤ st.attempts * P →
        st.collected = (L.drop S).take (min (ceilNat m k) (50 * P)) := by
      intro hX
      rw [hcol, take_min_of_length_le _ _ _ hX, take_min_of_length_le _ _ _ (by omega)]
    rcases h.stop with h1 | h1 | h1
    · rw [natLt_fin, decide_eq_false_iff_not, hcol, List.length_take] at h1
      rw [hcol, Nat.min_eq_left (by omega), Nat.min_eq_left (by omega)]
    · rw [hcol, h1]; rfl
    · obtain ⟨hpos, hb⟩ := h1
      obtain ⟨n, hn⟩ : ∃ n, st.attempts = n + 1 := ⟨st.attempts - 1, by omega⟩
      have hbw := batchAt_windowSource L order_by P S hsafe (st.attempts - 1) (by omega)
      have hbl : (batchAt (windowSource L) order_by (.ofNat P) (.ofNat S)
          (st.attempts - 1)).length = min P (L.length - (S + n * P)) := by
        rw [hbw]; simp [hn]
      have hlen0 : (batchAt (windowSource L) order_by (.ofNat P) (.ofNat S)
          (st.attempts - 1)).length < P ∨ P = 0 := by
        rcases hb with h2 | h2
        · rw [h2]
          rcases Nat.eq_zero_or_pos P with h3 | h3
          · exact Or.inr h3
          · exact Or.inl h3
        · left
          simpa [JsNum.ofNat, natLt_fin, ceilNat_natCast] using h2
      rcases hlen0 with h2 | h2
      · apply hend
        rw [hbl] at h2
        rw [hn, Nat.succ_mul, List.length_drop]
        omega
      · rw [hcol, h2]; simp

/-- Witness of C10: 7 rows, target = 5, per_page = 2, start_offset = 1. -/
theorem C10_witness :
    ∃ st, saveCsvAuto (okSource (windowSource (List.range 7))) []
        (.ofNat 5) (.ofNat 2) (.ofNat 1) = .ok st ∧
      st.calls[1]? = some ⟨⟨.ofNat 1, .ofNat 2, .ofNat 3, []⟩, [3, 4]⟩ ∧
      st.collected = [1, 2, 3, 4, 5] :=
  have ⟨st, hst, h1, h2⟩ := C10_window_source_offsets_and_result (List.range 7) []
    (.ofNat 5) (.ofNat 2) (.ofNat 1) 5 0 2 1 (by decide) (by decide) (by decide) (by decide)
  have hval : saveCsvAuto (okSource (windowSource (List.range 7))) []
      (.ofNat 5) (.ofNat 2) (.ofNat 1) =
      .ok ⟨[1, 2, 3, 4, 5], 3, .ofNat 7,
        [⟨⟨.ofNat 1, .ofNat 2, .ofNat 1, []⟩, [1, 2]⟩,
          ⟨⟨.ofNat 1, .ofNat 2, .ofNat 3, []⟩, [3, 4]⟩,
          ⟨⟨.ofNat 1, .ofNat 2, .ofNat 5, []⟩, [5, 6]⟩]⟩ := by rfl
  have hst2 := Except.ok.inj (hst.symm.trans hval)
  ⟨st, hst, (h1 2 (by decide) (by rw [hst2]; decide)).trans (by decide),
    h2.trans (by decide)⟩

/-! ## The normaliser: lemmas and claims -/

theorem splitBy_loop_append {α : Type} (R : α → α → Bool) (l : List α) (a : α) (g : List α)
    (gs : List (List α)) :
    List.splitBy.loop R l a g gs = gs.reverse ++ List.splitBy.loop R l a g [] := by
  induction l generalizing a g gs with
  | nil => simp [List.splitBy.loop]
  | cons b bs ih =>
    simp only [List.splitBy.loop]
    cases R a b with
    | true => exact ih b (a :: g) gs
    | false =>
      simp only []
      rw [ih b [] ((a :: g).reverse :: gs), ih b [] [(a :: g).reverse]]
      simp

theorem run_all_lineBreak (a : Char) (g : List Char) (ha : isLineBreak a = true)
    (hall : g.all isLineBreak = true) : ((a :: g).reverse).all isLineBreak = true := by
  rw [List.all_eq_true] at hall ⊢
  intro x hx
  rw [List.mem_reverse, List.mem_cons] at hx
  rcases hx with h | h
  · rw [h]; exact ha
  · exact hall x h

theorem collapse_loop (l : List Char) : ∀ (a : Char) (g : List Char),
    (g ≠ [] → isLineBreak a = true) → g.all isLineBreak = true →
    (((List.splitBy.loop (fun a b => isLineBreak a && isLineBreak b) l a g []).map fun run =>
      if run.all isLineBreak then [' '] else run).flatten) =
      if isLineBreak a then ' ' :: skipLineBreaks l else a :: replaceLineBreaks l := by
  induction l with
  | nil =>
    intro a g hg hall
    simp only [List.splitBy.loop, List.reverse_cons, List.reverse_nil, List.nil_append,
      List.map_cons, List.map_nil, List.flatten_cons, List.flatten_nil, List.append_nil]
    cases ha : isLineBreak a with
    | true =>
      have hrun := run_all_lineBreak a g ha hall
      rw [List.reverse_cons] at hrun
      rw [if_pos hrun]
      simp [skipLineBreaks]
    | false =>
      have hgn : g = [] := by
        by_contra hne
        rw [hg hne] at ha
        cases ha
      subst hgn
      simp [ha, replaceLineBreaks]
  | cons b bs ih =>
    intro a g hg hall
    simp only [List.splitBy.loop]
    cases ha : isLineBreak a with
    | true =>
      have hrun := run_all_lineBreak a g ha hall
      cases hb : isLineBreak b with
      | true =>
        simp only [Bool.and_self]
        rw [ih b (a :: g) (fun _ => hb) (by simp [ha, hall])]
        simp [hb, skipLineBreaks]
      | false =>
        simp only [Bool.and_false]
        rw [splitBy_loop_append, List.map_append, List.flatten_append,
          ih b [] (fun h => absurd rfl h) rfl]
        simp only [List.reverse_cons, List.reverse_nil, List.nil_append, List.map_cons,
          List.map_nil, List.flatten_cons, List.flatten_nil, List.append_nil]
        rw [List.reverse_cons] at hrun
        rw [if_pos hrun]
        simp [hb, skipLineBreaks]
    | false =>
      have hgn : g = [] := by
        by_contra hne
        rw [hg hne] at ha
        cases ha
      subst hgn
      simp only [Bool.false_and]
      rw [splitBy_loop_append, List.map_append, List.flatten_append,
        ih b [] (fun h => absurd rfl h) rfl]
      cases hb : isLineBreak b <;> simp [hb, ha, replaceLineBreaks]

theorem replaceLineBreaks_eq_collapse (s : List Char) :
    replaceLineBreaks s = collapseLineBreakRuns s := by
  cases s with
  | nil => simp [replaceLineBreaks, collapseLineBreakRuns]
  | cons a l =>
    unfold collapseLineBreakRuns
    simp only [List.splitBy]
    rw [collapse_loop l a [] (fun h => absurd rfl h) rfl]
    cases ha : isLineBreak a <;> simp [replaceLineBreaks, ha]

theorem getProp_eq_valueAt (raw : JsVal) (k : String) (h1 : raw ≠ .null)
    (h2 : raw ≠ .undefined) : getProp raw k = .ok (valueAt raw [k]) := by
  cases raw with
  | null => exact absurd rfl h1
  | undefined => exact absurd rfl h2
  | obj fields =>
    simp only [getProp, valueAt]
    cases fields.lookup k <;> simp [valueAt]
  | _ => rfl

theorem jsOr_chain2 (a b : JsVal) :
    jsOr (jsOr (.ok a) (.ok b)) (.ok .null) = .ok (orVals [a, b]) := by
  cases ha : truthy a <;> cases hb : truthy b <;> simp [jsOr, orVals, List.find?, ha, hb]

theorem jsOr_chain3 (a b c : JsVal) :
    jsOr (jsOr (jsOr (.ok a) (.ok b)) (.ok c)) (.ok .null) = .ok (orVals [a, b, c]) := by
  cases ha : truthy a <;> cases hb : truthy b <;> cases hc : truthy c <;>
    simp [jsOr, orVals, List.find?, ha, hb, hc]

theorem jsOr_chain4 (a b c d : JsVal) :
    jsOr (jsOr (jsOr (jsOr (.ok a) (.ok b)) (.ok c)) (.ok d)) (.ok .null)
      = .ok (orVals [a, b, c, d]) := by
  cases ha : truthy a <;> cases hb : truthy b <;> cases hc : truthy c <;> cases hd : truthy d <;>
    simp [jsOr, orVals, List.find?, ha, hb, hc, hd]

theorem mhs_eq (raw : JsVal) (h1 : raw ≠ .null) (h2 : raw ≠ .undefined) :
    ∃ m, jsOr (getProp raw "mahasiswa") (.ok (.obj [])) = .ok m ∧
      ∀ k, getProp m k = .ok (valueAt raw ["mahasiswa", k]) := by
  cases raw with
  | null => exact absurd rfl h1
  | undefined => exact absurd rfl h2
  | obj fields =>
    simp only [getProp, valueAt]
    cases hl : fields.lookup "mahasiswa" with
    | none => exact ⟨.obj [], rfl, fun k => rfl⟩
    | some w =>
      cases w with
      | undefined => exact ⟨.obj [], rfl, fun k => rfl⟩
      | null => exact ⟨.obj [], rfl, fun k => rfl⟩
      | bool b =>
        cases b
        · exact ⟨.obj [], rfl, fun k => rfl⟩
        · exact ⟨.bool true, rfl, fun k => rfl⟩
      | num n =>
        by_cases hn : n = 0
        · subst hn; exact ⟨.obj [], rfl, fun k => rfl⟩
        · refine ⟨.num n, ?_, fun k => rfl⟩
          simp [jsOr, truthy, hn]
      | str s =>
        by_cases hs : s = ""
        · subst hs; exact ⟨.obj [], rfl, fun k => rfl⟩
        · refine ⟨.str s, ?_, fun k => rfl⟩
          simp [jsOr, truthy, hs]
      | arr xs => exact ⟨.arr xs, rfl, fun k => rfl⟩
      | obj fs =>
        refine ⟨.obj fs, rfl, fun k => ?_⟩
        simp only [getProp, valueAt]
        cases fs.lookup k <;> simp [valueAt]
  | bool b => exact ⟨.obj [], rfl, fun k => rfl⟩
  | num n => exact ⟨.obj [], rfl, fun k => rfl⟩
  | str s => exact ⟨.obj [], rfl, fun k => rfl⟩
  | arr xs => exact ⟨.obj [], rfl, fun k => rfl⟩

theorem mapItem_eq (raw : JsVal) (h1 : raw ≠ .null) (h2 : raw ≠ .undefined) :
    mapItem raw =
      (cleanText (firstTruthy raw namaAliases) >>= fun nama =>
       cleanText (firstTruthy raw judulIndonesiaAliases) >>= fun ji =>
       cleanText (firstTruthy raw judulInggrisAliases) >>= fun je =>
       cleanText (firstTruthy raw statusAliases) >>= fun st =>
       cleanText (firstTruthy raw judulProdiAliases) >>= fun jp =>
       cleanText (firstTruthy raw jenisJalurAliases) >>= fun jj =>
       pure ⟨firstTruthy raw nimAliases, nama, ji, je, st, jp, jj⟩) := by
  obtain ⟨m, hm, hmk⟩ := mhs_eq raw h1 h2
  have hraw : (match raw with | .undefined => JsVal.obj [] | v => v) = raw := by
    cases raw <;> first | rfl | exact absurd rfl h2
  unfold mapItem
  simp only [hraw, hm]
  simp only [bind, Except.bind, hmk, getProp_eq_valueAt raw _ h1 h2, jsOr_chain2, jsOr_chain3,
    jsOr_chain4]
  rfl

theorem cleanText_str (s : String) (h : s ≠ "") :
    cleanText (.str s) = .ok (.str (cleanSpec s)) := by
  simp [cleanText, truthy, h, cleanSpec, replaceLineBreaks_eq_collapse]

theorem cleanText_ok_iff (v : JsVal) :
    (∃ w, cleanText v = .ok w) ↔ (truthy v = true → ∃ s, v = .str s) := by
  cases ht : truthy v with
  | false => simp [cleanText, ht]
  | true =>
    cases v <;> simp [cleanText, ht]

theorem firstTruthy_cons (raw : JsVal) (a : List String) (A : List (List String)) :
    firstTruthy raw (a :: A) =
      if truthy (valueAt raw a) then valueAt raw a else firstTruthy raw A := by
  unfold firstTruthy
  cases h : truthy (valueAt raw a) <;> simp [List.find?, h]

theorem firstNonEmpty_cons (raw : JsVal) (a : List String) (A : List (List String)) :
    firstNonEmpty raw (a :: A) =
      match nonEmptyString (valueAt raw a) with
      | some s => some s
      | none => firstNonEmpty raw A := by
  unfold firstNonEmpty
  rw [List.findSome?_cons]
  cases nonEmptyString (valueAt raw a) <;> rfl

theorem firstTruthy_of_strings (raw : JsVal) (A : List (List String))
    (h : ∀ a ∈ A, isStringOrAbsent (valueAt raw a) = true) :
    firstTruthy raw A = fieldOf id raw A := by
  induction A with
  | nil => rfl
  | cons a A ih =>
    have ha := h a (List.mem_cons_self _ _)
    have ih2 := ih fun b hb => h b (List.mem_cons_of_mem _ hb)
    rw [firstTruthy_cons, ih2]
    unfold fieldOf
    rw [firstNonEmpty_cons]
    cases hv : valueAt raw a with
    | undefined => simp [truthy, nonEmptyString]
    | str s =>
      by_cases hs : s = ""
      · simp [truthy, nonEmptyString, hs]
      · simp [truthy, nonEmptyString, hs]
    | _ => rw [hv] at ha; cases ha

theorem cleanText_fieldOf (raw : JsVal) (A : List (List String)) :
    cleanText (fieldOf id raw A) = .ok (fieldOf cleanSpec raw A) := by
  unfold fieldOf
  cases h : firstNonEmpty raw A with
  | none => rfl
  | some s =>
    have hs : s ≠ "" := by
      unfold firstNonEmpty at h
      obtain ⟨a, _, ha⟩ := List.exists_of_findSome?_eq_some h
      cases hv : valueAt raw a with
      | str t =>
        rw [hv] at ha
        simp only [nonEmptyString] at ha
        by_cases ht : t = ""
        · simp [ht] at ha
        · simp [ht] at ha
          rw [← ha]; exact ht
      | _ => rw [hv] at ha; simp [nonEmptyString] at ha
    exact cleanText_str s hs

theorem mapItem_of_strings (fields : List (String × JsVal))
    (h : ∀ a ∈ allAliases, isStringOrAbsent (valueAt (.obj fields) a) = true) :
    mapItem (.obj fields) = .ok
      { nim := fieldOf id (.obj fields) nimAliases
        nama := fieldOf cleanSpec (.obj fields) namaAliases
        judul_indonesia := fieldOf cleanSpec (.obj fields) judulIndonesiaAliases
        judul_inggris := fieldOf cleanSpec (.obj fields) judulInggrisAliases
        status := fieldOf cleanSpec (.obj fields) statusAliases
        judul_tugas_akhir_program_studi := fieldOf cleanSpec (.obj fields) judulProdiAliases
        jenis_jalur := fieldOf cleanSpec (.obj fields) jenisJalurAliases } := by
  have hsub : ∀ A, (∀ a ∈ A, a ∈ allAliases) →
      firstTruthy (.obj fields) A = fieldOf id (.obj fields) A :=
    fun A hA => firstTruthy_of_strings _ A fun a ha => h a (hA a ha)
  rw [mapItem_eq _ (by simp) (by simp)]
  rw [hsub nimAliases (by decide), hsub namaAliases (by decide),
    hsub judulIndonesiaAliases (by decide), hsub judulInggrisAliases (by decide),
    hsub statusAliases (by decide), hsub judulProdiAliases (by decide),
    hsub jenisJalurAliases (by decide)]
  simp only [cleanText_fieldOf]
  rfl

/-- C5: for every raw record whose alias values are strings or absent, each
field of `mapItem` is determined by the first non-empty alias in the documented
priority order: it is that alias's value (cleaned, except `nim`), later aliases
are ignored, and it is `null` when no alias holds a non-empty string. -/
theorem C5_first_non_empty_alias_wins (fields : List (String × JsVal))
    (h : ∀ a ∈ allAliases, isStringOrAbsent (valueAt (.obj fields) a) = true) :
    mapItem (.obj fields) = .ok
      { nim := fieldOf id (.obj fields) nimAliases
        nama := fieldOf cleanSpec (.obj fields) namaAliases
        judul_indonesia := fieldOf cleanSpec (.obj fields) judulIndonesiaAliases
        judul_inggris := fieldOf cleanSpec (.obj fields) judulInggrisAliases
        status := fieldOf cleanSpec (.obj fields) statusAliases
        judul_tugas_akhir_program_studi := fieldOf cleanSpec (.obj fields) judulProdiAliases
        jenis_jalur := fieldOf cleanSpec (.obj fields) jenisJalurAliases } := by
  have hsub : ∀ A, (∀ a ∈ A, a ∈ allAliases) →
      firstTruthy (.obj fields) A = fieldOf id (.obj fields) A :=
    fun A hA => firstTruthy_of_strings _ A fun a ha => h a (hA a ha)
  rw [mapItem_eq _ (by simp) (by simp)]
  rw [hsub nimAliases (by decide), hsub namaAliases (by decide),
    hsub judulIndonesiaAliases (by decide), hsub judulInggrisAliases (by decide),
    hsub statusAliases (by decide), hsub judulProdiAliases (by decide),
    hsub jenisJalurAliases (by decide)]
  simp only [cleanText_fieldOf]
  rfl

/-- Witness of C5: `mahasiswa.nim` wins over `nim`, `judul_id` over
`judul_bahasa_indonesia`, an empty `status` is passed over. -/
theorem C5_witness :
    mapItem (.obj [("mahasiswa", .obj [("nim", .str "211110001")]), ("nim", .str "999"),
        ("nama", .str "  Budi\r\nSantoso "), ("judul_id", .str "Judul A"),
        ("judul_bahasa_indonesia", .str "Judul B"), ("status", .str ""),
        ("status_proses", .str "Disetujui")]) =
      .ok ⟨.str "211110001", .str "Budi Santoso", .str "Judul A", .null, .str "Disetujui",
        .null, .null⟩ :=
  (C5_first_non_empty_alias_wins _ (by decide)).trans rfl

theorem lineBreak_is_whiteSpace (c : Char) (h : isLineBreak c = true) :
    isJsWhiteSpace c = true := by
  simp only [isLineBreak, Bool.or_eq_true, beq_iff_eq] at h
  rcases h with h | h <;> subst h <;> decide

theorem replace_skip_noLineBreak (s : List Char) :
    noLineBreak (replaceLineBreaks s) = true ∧ noLineBreak (skipLineBreaks s) = true := by
  induction s with
  | nil => exact ⟨rfl, rfl⟩
  | cons c cs ih =>
    cases hc : isLineBreak c with
    | true =>
      refine ⟨?_, ?_⟩
      · simp only [replaceLineBreaks, hc, if_true]
        have := ih.2
        simp only [noLineBreak, List.all_cons] at this ⊢
        rw [this]; decide
      · simp only [skipLineBreaks, hc, if_true]; exact ih.2
    | false =>
      have := ih.1
      refine ⟨?_, ?_⟩
      · simp only [replaceLineBreaks, hc]
        simp only [noLineBreak, List.all_cons] at this ⊢
        simp [this, hc]
      · simp only [skipLineBreaks, hc]
        simp only [noLineBreak, List.all_cons] at this ⊢
        simp [this, hc]

theorem replace_skip_mem (s : List Char) (x : Char) (hx : isJsWhiteSpace x = false) (hm : x ∈ s) :
    x ∈ replaceLineBreaks s ∧ x ∈ skipLineBreaks s := by
  induction s with
  | nil => cases hm
  | cons c cs ih =>
    rcases List.mem_cons.mp hm with h | h
    · subst h
      have hc : isLineBreak x = false := by
        cases hlb : isLineBreak x with
        | false => rfl
        | true => rw [lineBreak_is_whiteSpace x hlb] at hx; cases hx
      simp [replaceLineBreaks, skipLineBreaks, hc]
    · have := ih h
      cases hc : isLineBreak c <;> simp [replaceLineBreaks, skipLineBreaks, hc, this]

theorem jsTrim_sublist (l : List Char) : (jsTrim l).Sublist l :=
  ((List.rdropWhile_prefix _ _).sublist).trans (List.dropWhile_sublist _)

theorem jsTrim_noLineBreak (l : List Char) (h : noLineBreak l = true) :
    noLineBreak (jsTrim l) = true := by
  simp only [noLineBreak, List.all_eq_true] at h ⊢
  exact fun x hx => h x ((jsTrim_sublist l).subset hx)

theorem jsTrim_noOuterWhiteSpace (l : List Char) : noOuterWhiteSpace (jsTrim l) = true := by
  unfold noOuterWhiteSpace
  rw [Bool.and_eq_true]
  refine ⟨?_, ?_⟩
  · have hpre : jsTrim l <+: l.dropWhile isJsWhiteSpace := List.rdropWhile_prefix _ _
    obtain ⟨t, ht⟩ := hpre
    have hhead := List.head?_dropWhile_not isJsWhiteSpace l
    cases hj : jsTrim l with
    | nil => rfl
    | cons x xs =>
      rw [← ht, hj] at hhead
      simp only [List.cons_append, List.head?_cons] at hhead
      simp [hhead]
  · cases hj : (jsTrim l).getLast? with
    | none => rfl
    | some x =>
      have hne : jsTrim l ≠ [] := by
        intro h0; rw [h0] at hj; cases hj
      have hlast := List.rdropWhile_last_not isJsWhiteSpace (l.dropWhile isJsWhiteSpace) hne
      have hx : (jsTrim l).getLast hne = x := by
        rw [List.getLast?_eq_getLast _ hne] at hj
        exact Option.some.inj hj
      have hx2 : isJsWhiteSpace x = false := by
        rw [← hx]; simpa [jsTrim] using hlast
      simp [hx2]

theorem jsTrim_ne_nil (l : List Char) (x : Char) (hx : isJsWhiteSpace x = false) (hm : x ∈ l) :
    jsTrim l ≠ [] := by
  intro h
  unfold jsTrim at h
  rw [List.rdropWhile_eq_nil_iff] at h
  have hall : ∀ y ∈ l, isJsWhiteSpace y = true := by
    intro y hy
    rw [← List.takeWhile_append_dropWhile isJsWhiteSpace l] at hy
    rcases List.mem_append.mp hy with h1 | h1
    · exact List.mem_takeWhile_imp h1
    · exact h y h1
  rw [hall x hm] at hx
  cases hx

theorem jsTrim_decompose (l : List Char) :
    ∃ pre post, l = pre ++ jsTrim l ++ post ∧ pre.all isJsWhiteSpace = true ∧
      post.all isJsWhiteSpace = true := by
  refine ⟨l.takeWhile isJsWhiteSpace,
    (((l.dropWhile isJsWhiteSpace).reverse).takeWhile isJsWhiteSpace).reverse, ?_, ?_, ?_⟩
  · have h1 := List.takeWhile_append_dropWhile isJsWhiteSpace l
    have h2 := List.takeWhile_append_dropWhile isJsWhiteSpace (l.dropWhile isJsWhiteSpace).reverse
    have h3 : l.dropWhile isJsWhiteSpace = jsTrim l ++
        (((l.dropWhile isJsWhiteSpace).reverse).takeWhile isJsWhiteSpace).reverse := by
      have := congrArg List.reverse h2
      rw [List.reverse_append, List.reverse_reverse] at this
      exact this.symm
    rw [List.append_assoc, ← h3, h1]
  · rw [List.all_eq_true]
    exact fun x hx => List.mem_takeWhile_imp hx
  · rw [List.all_eq_true]
    exact fun x hx => List.mem_takeWhile_imp (List.mem_reverse.mp hx)

theorem fieldOf_cleanSpec_outcome (raw : JsVal) (A : List (List String)) :
    CleanedOutcome raw A (fieldOf cleanSpec raw A) := by
  unfold CleanedOutcome fieldOf
  cases h : firstNonEmpty raw A with
  | none => exact ⟨rfl, fun _ => rfl⟩
  | some s =>
    have h1 : noOuterWhiteSpace (cleanSpec s).data = true := jsTrim_noOuterWhiteSpace _
    have h2 : noLineBreak (cleanSpec s).data = true := by
      show noLineBreak (jsTrim (collapseLineBreakRuns s.data)) = true
      rw [← replaceLineBreaks_eq_collapse]
      exact jsTrim_noLineBreak _ (replace_skip_noLineBreak _).1
    refine ⟨by simp [isTrimmedField, h1, h2], fun hs => ?_⟩
    have hany := hs s rfl
    rw [List.any_eq_true] at hany
    obtain ⟨x, hxm, hx⟩ := hany
    have hx2 : isJsWhiteSpace x = false := by simpa using hx
    have hne : (cleanSpec s).data ≠ [] := by
      show jsTrim (collapseLineBreakRuns s.data) ≠ []
      rw [← replaceLineBreaks_eq_collapse]
      exact jsTrim_ne_nil _ x hx2 (replace_skip_mem _ x hx2 hxm).1
    have hne2 : cleanSpec s ≠ "" := by
      intro h0; rw [h0] at hne; exact hne rfl
    simp [isCleanField, h1, h2, hne2]

theorem fieldOf_id_nonEmpty (raw : JsVal) (A : List (List String)) :
    isNonEmptyStringOrNull (fieldOf id raw A) = true := by
  have h := cleanText_fieldOf raw A
  unfold fieldOf at h ⊢
  cases hf : firstNonEmpty raw A with
  | none => rfl
  | some s =>
    rw [hf] at h
    by_cases hs : s = ""
    · subst hs; simp [cleanText, truthy] at h
    · simp [isNonEmptyStringOrNull, hs]

/-- C6: `cleanText` of a non-empty string is the string with every maximal
run of carriage-return/line-feed characters replaced by one space and then
trimmed (the trimmed string has no white space at either end and differs from
the untrimmed one by white space only); `cleanText` of `null` and of the empty
string is `null`; `"a\r\nb"` gives `"a b"` and `"  x  "` gives `"x"`. -/
theorem C6_cleanText_collapses_and_trims :
    (∀ s : String,
      cleanText (.str s) = if s = "" then .ok .null else .ok (.str (cleanSpec s))) ∧
    cleanText .null = .ok .null ∧
    (∀ l : List Char, noOuterWhiteSpace (jsTrim l) = true ∧
      ∃ pre post, l = pre ++ jsTrim l ++ post ∧ pre.all isJsWhiteSpace = true ∧
        post.all isJsWhiteSpace = true) ∧
    cleanText (.str "a\r\nb") = .ok (.str "a b") ∧
    cleanText (.str "  x  ") = .ok (.str "x") := by
  refine ⟨fun s => ?_, rfl, fun l => ⟨jsTrim_noOuterWhiteSpace l, jsTrim_decompose l⟩, rfl, rfl⟩
  by_cases hs : s = ""
  · subst hs; rfl
  · rw [if_neg hs]; exact cleanText_str s hs

/-- C7 fails: with `nim = " 1 "` and `nama = "  "` (both strings) the record
has `nim = " 1 "`, which has leading and trailing white space, and `nama = ""`,
the empty string. -/
theorem C7_counterexample :
    (∀ a ∈ allAliases,
      isStringOrAbsent (valueAt (.obj [("nim", .str " 1 "), ("nama", .str "  ")]) a) = true) ∧
    mapItem (.obj [("nim", .str " 1 "), ("nama", .str "  ")]) =
      .ok ⟨.str " 1 ", .str "", .null, .null, .null, .null, .null⟩ ∧
    isCleanField (.str " 1 ") = false ∧ isCleanField (.str "") = false :=
  ⟨by decide, rfl, rfl, rfl⟩

/-- C7, amended: for every raw record with string-valued (or absent) aliases,
`nim` is `null` or the non-empty string of its winning alias, unchanged; each of
the six other fields is `null` or a string without leading or trailing white
space and without line breaks, and it is non-empty unless its winning alias
value consists of white space only. -/
theorem C7_fields_trimmed_nim_verbatim (fields : List (String × JsVal))
    (h : ∀ a ∈ allAliases, isStringOrAbsent (valueAt (.obj fields) a) = true) :
    ∃ r, mapItem (.obj fields) = .ok r ∧
      r.nim = fieldOf id (.obj fields) nimAliases ∧
      isNonEmptyStringOrNull r.nim = true ∧
      CleanedOutcome (.obj fields) namaAliases r.nama ∧
      CleanedOutcome (.obj fields) judulIndonesiaAliases r.judul_indonesia ∧
      CleanedOutcome (.obj fields) judulInggrisAliases r.judul_inggris ∧
      CleanedOutcome (.obj fields) statusAliases r.status ∧
      CleanedOutcome (.obj fields) judulProdiAliases r.judul_tugas_akhir_program_studi ∧
      CleanedOutcome (.obj fields) jenisJalurAliases r.jenis_jalur := by
  exact ⟨_, mapItem_of_strings fields h, rfl, fieldOf_id_nonEmpty _ _,
    fieldOf_cleanSpec_outcome _ _, fieldOf_cleanSpec_outcome _ _, fieldOf_cleanSpec_outcome _ _,
    fieldOf_cleanSpec_outcome _ _, fieldOf_cleanSpec_outcome _ _, fieldOf_cleanSpec_outcome _ _⟩

/-- Witness of the amended C7. -/
theorem C7_witness :
    ∃ r, mapItem (.obj [("nim", .str " 1 "), ("nama", .str " Budi\n")]) = .ok r ∧
      isNonEmptyStringOrNull r.nim = true ∧ isTrimmedField r.nama = true ∧
      isCleanField r.nama = true :=
  have ⟨r, h1, _, h3, h4, _⟩ := C7_fields_trimmed_nim_verbatim
    [("nim", .str " 1 "), ("nama", .str " Budi\n")] (by decide)
  ⟨r, h1, h3, h4.1, h4.2 (fun s hs => by cases hs; decide)⟩

/-- C8 fails: a numeric `nama` makes `cleanText` call a missing `replace`
method, and a `null` raw item cannot be read; both throw a `TypeError`. -/
theorem C8_counterexample :
    mapItem (.obj [("nama", .num 123)]) = .error (.typeError "text.replace is not a function") ∧
    mapItem .null = .error (.typeError "Cannot read properties of null") ∧
    ¬ ∃ r, mapItem (.obj [("nama", .num 123)]) = .ok r :=
  ⟨rfl, rfl, fun ⟨_, h⟩ => by cases h⟩

theorem bind_ok_iff {α β : Type} (x : Except JsError α) (f : α → Except JsError β) :
    (∃ r, (x >>= f) = .ok r) ↔ ∃ a, x = .ok a ∧ ∃ r, f a = .ok r := by
  cases x with
  | error e =>
    constructor
    · rintro ⟨r, hr⟩; cases hr
    · rintro ⟨a, ha, _⟩; cases ha
  | ok a =>
    constructor
    · rintro ⟨r, hr⟩; exact ⟨a, rfl, r, hr⟩
    · rintro ⟨b, hb, r, hr⟩; cases hb; exact ⟨r, hr⟩

/-- C8, amended: `mapItem` returns a seven-field record exactly when the raw
input is not `null` and, for each of the six cleaned fields, the first truthy
alias value, if there is one, is a string. -/
theorem C8_mapItem_succeeds_iff (raw : JsVal) :
    (∃ r, mapItem raw = .ok r) ↔
      raw ≠ .null ∧ ∀ A ∈ cleanedAliases,
        truthy (firstTruthy raw A) = true → ∃ s, firstTruthy raw A = .str s := by
  have key : ∀ raw : JsVal, raw ≠ .null → raw ≠ .undefined →
      ((∃ r, mapItem raw = .ok r) ↔ ∀ A ∈ cleanedAliases,
        truthy (firstTruthy raw A) = true → ∃ s, firstTruthy raw A = .str s) := by
    intro raw h1 h2
    rw [mapItem_eq raw h1 h2]
    simp only [bind_ok_iff, cleanedAliases, List.mem_cons, List.mem_singleton,
      List.not_mem_nil, or_false, forall_eq_or_imp, forall_eq]
    constructor
    · rintro ⟨_, ha, _, hb, _, hc, _, hd, _, he, _, hf, _⟩
      exact ⟨(cleanText_ok_iff _).mp ⟨_, ha⟩, (cleanText_ok_iff _).mp ⟨_, hb⟩,
        (cleanText_ok_iff _).mp ⟨_, hc⟩, (cleanText_ok_iff _).mp ⟨_, hd⟩,
        (cleanText_ok_iff _).mp ⟨_, he⟩, (cleanText_ok_iff _).mp ⟨_, hf⟩⟩
    · rintro ⟨ha, hb, hc, hd, he, hf⟩
      obtain ⟨a, ha⟩ := (cleanText_ok_iff _).mpr ha
      obtain ⟨b, hb⟩ := (cleanText_ok_iff _).mpr hb
      obtain ⟨c, hc⟩ := (cleanText_ok_iff _).mpr hc
      obtain ⟨d, hd⟩ := (cleanText_ok_iff _).mpr hd
      obtain ⟨e, he⟩ := (cleanText_ok_iff _).mpr he
      obtain ⟨f, hf⟩ := (cleanText_ok_iff _).mpr hf
      exact ⟨a, ha, b, hb, c, hc, d, hd, e, he, f, hf, _, rfl⟩
  cases raw with
  | null =>
    constructor
    · rintro ⟨r, hr⟩; cases hr
    · rintro ⟨h, _⟩; exact absurd rfl h
  | undefined =>
    constructor
    · intro _
      refine ⟨by simp, ?_⟩
      intro A hA ht
      simp only [cleanedAliases, List.mem_cons, List.mem_singleton, List.not_mem_nil,
        or_false] at hA
      rcases hA with rfl | rfl | rfl | rfl | rfl | rfl <;> cases ht
    · intro _; exact ⟨_, rfl⟩
  | bool b => simpa using key (.bool b) (by simp) (by simp)
  | num n => simpa using key (.num n) (by simp) (by simp)
  | str s => simpa using key (.str s) (by simp) (by simp)
  | arr xs => simpa using key (.arr xs) (by simp) (by simp)
  | obj fs => simpa using key (.obj fs) (by simp) (by simp)

/-! ## `buildNextUrl`: lemmas and claims -/

set_option maxRecDepth 100000 in
theorem encodedByteOk_ofNat : ∀ n, n < 256 → encodedByteOk (UInt8.ofNat n) = true := by
  decide

theorem encodedByteOk_all (b : UInt8) : encodedByteOk b = true := by
  have h := encodedByteOk_ofNat b.toNat (UInt8.toNat_lt_size b)
  have hb : UInt8.ofNat b.toNat = b :=
    UInt8.toNat.inj (UInt8.toNat_ofNat_of_lt (UInt8.toNat_lt_size b))
  rwa [hb] at h

theorem percentDecode_cons_of_ne (c : Char) (R : List Char) (hc : c ≠ '%') :
    percentDecode (c :: R) = String.utf8EncodeChar c ++ percentDecode R := by
  match R with
  | [] => simp [percentDecode]
  | [x] => simp [percentDecode]
  | x :: y :: z => simp [percentDecode, hc]

theorem percentDecode_hex (h l : Char) (a d : Nat) (R : List Char)
    (ha : hexVal h = some a) (hd : hexVal l = some d) :
    percentDecode ('%' :: h :: l :: R) = UInt8.ofNat (16 * a + d) :: percentDecode R := by
  simp [percentDecode, ha, hd]

/-- Shape of the serialisation of one byte, read off `encodedByteOk`. -/
theorem encodeByte_shape (b : UInt8) :
    (∀ c ∈ encodeByte b, c ≠ '&' ∧ c ≠ '=') ∧
    ∀ R, percentDecode (plusToSpace (encodeByte b) ++ R) = b :: percentDecode R := by
  have h := encodedByteOk_all b
  unfold encodedByteOk at h
  have hlen : (plusToSpace (encodeByte b)).length = (encodeByte b).length := by
    simp [plusToSpace]
  match hp : plusToSpace (encodeByte b), he : encodeByte b with
  | [c], [e] =>
    rw [hp, he] at h
    simp only [Bool.and_eq_true, bne_iff_ne, ne_eq, beq_iff_eq] at h
    obtain ⟨⟨⟨h1, h2⟩, h3⟩, h4⟩ := h
    refine ⟨?_, fun R => ?_⟩
    · intro x hx
      rw [List.mem_singleton] at hx
      subst hx
      exact ⟨h2, h3⟩
    · rw [← he, hp, List.singleton_append, percentDecode_cons_of_ne c R h1, h4]
      rfl
  | [p, x, y], [e1, e2, e3] =>
    rw [hp, he] at h
    simp only [Bool.and_eq_true, bne_iff_ne, ne_eq, beq_iff_eq] at h
    obtain ⟨⟨⟨⟨⟨h1, h2⟩, h3⟩, h4⟩, h5⟩, h6⟩ := h
    have hxy : e2 = x ∧ e3 = y ∧ e1 = p := by
      have hp2 := hp
      rw [he] at hp2
      simp only [plusToSpace, List.map_cons, List.map_nil, List.cons.injEq, and_true] at hp2
      obtain ⟨q1, q2, q3⟩ := hp2
      refine ⟨?_, ?_, ?_⟩
      · by_cases hq : e2 = '+'
        · rw [if_pos hq] at q2
          rw [← q2] at h6
          simp [hexVal] at h6
        · rw [if_neg hq] at q2; exact q2
      · by_cases hq : e3 = '+'
        · rw [if_pos hq] at q3
          rw [← q3] at h6
          cases hexVal x <;> simp [hexVal] at h6
        · rw [if_neg hq] at q3; exact q3
      · by_cases hq : e1 = '+'
        · rw [if_pos hq] at q1
          rw [← q1] at h1
          cases h1
        · rw [if_neg hq] at q1; exact q1
    obtain ⟨r2, r3, r1⟩ := hxy
    subst r2 r3 r1
    subst h1
    cases hx : hexVal e2 with
    | none => rw [hx] at h6; cases h6
    | some a =>
      cases hy : hexVal e3 with
      | none => rw [hx, hy] at h6; cases h6
      | some d =>
        rw [hx, hy] at h6
        simp only [beq_iff_eq] at h6
        refine ⟨?_, fun R => ?_⟩
        · intro c hc
          simp only [List.mem_cons, List.mem_singleton, List.not_mem_nil, or_false] at hc
          rcases hc with rfl | rfl | rfl
          · exact ⟨by decide, by decide⟩
          · exact ⟨h2, h3⟩
          · exact ⟨h4, h5⟩
        · rw [← he, hp]
          show percentDecode ('%' :: e2 :: e3 :: R) = b :: percentDecode R
          rw [percentDecode_hex e2 e3 a d R hx hy, h6]
  | [], _ => rw [hp] at h; simp at h
  | [_], [] => rw [hp, he] at h; simp at h
  | [_], _ :: _ :: _ => rw [hp, he] at hlen; simp at hlen
  | [_, _], _ => rw [hp] at h; simp at h
  | [_, _, _], [] => rw [hp, he] at hlen; simp at hlen
  | [_, _, _], [_] => rw [hp, he] at hlen; simp at hlen
  | [_, _, _], [_, _] => rw [hp, he] at hlen; simp at hlen
  | [_, _, _], _ :: _ :: _ :: _ :: _ => rw [hp, he] at hlen; simp at hlen
  | _ :: _ :: _ :: _ :: _, _ => rw [hp] at h; simp at h

theorem plusToSpace_append (a b : List Char) :
    plusToSpace (a ++ b) = plusToSpace a ++ plusToSpace b := by
  simp [plusToSpace]

theorem decode_encode_bytes (bs : List UInt8) :
    percentDecode (plusToSpace (bs.flatMap encodeByte)) = bs := by
  induction bs with
  | nil => rfl
  | cons b bs ih =>
    rw [List.flatMap_cons, plusToSpace_append, (encodeByte_shape b).2, ih]

theorem encode_bytes_no_separator (bs : List UInt8) :
    ∀ c ∈ bs.flatMap encodeByte, c ≠ '&' ∧ c ≠ '=' := by
  intro c hc
  rw [List.mem_flatMap] at hc
  obtain ⟨b, _, hb⟩ := hc
  exact (encodeByte_shape b).1 c hb

theorem parse_piece (n v : String) :
    (percentDecode (plusToSpace ((urlencode n ++ '=' :: urlencode v).takeWhile
        fun c => c != '=')),
      percentDecode (plusToSpace (((urlencode n ++ '=' :: urlencode v).dropWhile
        fun c => c != '=').drop 1))) = (utf8 n, utf8 v) := by
  have hn : ∀ c ∈ urlencode n, (c != '=') = true := fun c hc => by
    simpa using (encode_bytes_no_separator (utf8 n) c hc).2
  rw [List.takeWhile_append_of_pos hn, List.dropWhile_append_of_pos hn]
  simp [urlencode, decode_encode_bytes]

theorem parse_serialize (ps : Params) :
    parseQuery (serializeParams ps) = ps.map fun p => (utf8 p.1, utf8 p.2) := by
  unfold parseQuery serializeParams
  by_cases hps : ps = []
  · subst hps
    rfl
  · have hsep : ∀ l ∈ ps.map (fun p => urlencode p.1 ++ '=' :: urlencode p.2), '&' ∉ l := by
      intro l hl
      rw [List.mem_map] at hl
      obtain ⟨p, _, rfl⟩ := hl
      intro hmem
      rcases List.mem_append.mp hmem with h | h
      · exact (encode_bytes_no_separator (utf8 p.1) _ h).1 rfl
      · rcases List.mem_cons.mp h with h | h
        · cases h
        · exact (encode_bytes_no_separator (utf8 p.2) _ h).1 rfl
    rw [List.splitOn_intercalate _ '&' hsep (by simpa using hps)]
    have hfil : (ps.map (fun p => urlencode p.1 ++ '=' :: urlencode p.2)).filter
        (fun piece => !piece.isEmpty) = ps.map (fun p => urlencode p.1 ++ '=' :: urlencode p.2) := by
      rw [List.filter_eq_self]
      intro l hl
      rw [List.mem_map] at hl
      obtain ⟨p, _, rfl⟩ := hl
      simp
    rw [hfil, List.map_map]
    apply List.map_congr_left
    intro p _
    exact parse_piece p.1 p.2

theorem startsWith_iff (s sub : List Char) : startsWith s sub = true ↔ sub <+: s := by
  induction s generalizing sub with
  | nil =>
    cases sub with
    | nil => simp [startsWith]
    | cons p ps => simp [startsWith]
  | cons c cs ih =>
    cases sub with
    | nil => simp [startsWith]
    | cons p ps =>
      simp only [startsWith, Bool.and_eq_true, beq_iff_eq, ih, List.cons_prefix_cons]
      constructor
      · rintro ⟨h1, h2⟩; exact ⟨h1.symm, h2⟩
      · rintro ⟨h1, h2⟩; exact ⟨h1.symm, h2⟩

theorem jsIncludes_iff (s sub : List Char) : jsIncludes s sub = true ↔ sub <:+: s := by
  induction s with
  | nil =>
    simp only [jsIncludes, startsWith_iff, List.prefix_nil, List.infix_nil]
  | cons c cs ih =>
    simp only [jsIncludes, Bool.or_eq_true, startsWith_iff, ih, List.infix_cons_iff]

theorem singleton_infix_iff_mem (c : Char) (s : List Char) : [c] <:+: s ↔ c ∈ s := by
  constructor
  · rintro ⟨a, b, h⟩
    rw [← h]; simp
  · intro h
    obtain ⟨a, b, h2⟩ := List.append_of_mem h
    exact ⟨a, b, by rw [h2]; simp⟩

theorem normalizeOrderBy_eq (v : String) : normalizeOrderBy v = orderEntry v := by
  unfold normalizeOrderBy orderEntry
  by_cases h : '|' ∈ v.data ∨ ['%', '7', 'C'] <:+: v.data
  · rw [if_pos h, if_pos]
    rw [Bool.or_eq_true, jsIncludes_iff, jsIncludes_iff, singleton_infix_iff_mem]
    exact h
  · rw [if_neg h, if_neg]
    · rfl
    · rw [Bool.or_eq_true, jsIncludes_iff, jsIncludes_iff, singleton_infix_iff_mem]
      exact h

theorem foldl_paramsAppend (qb : List String) (ps : Params) :
    qb.foldl (fun ps v => paramsAppend ps "order_by[]" v) ps =
      ps ++ qb.map fun v => ("order_by[]", v) := by
  induction qb generalizing ps with
  | nil => simp
  | cons v qb ih =>
    rw [List.foldl_cons, ih]
    simp [paramsAppend]

theorem numberToString_ofNat (n : Nat) (h : n < 10 ^ 21) :
    numberToString (.ofNat n) = some (toString n) := by
  simp only [numberToString, JsNum.ofNat, Int.natAbs_ofNat, true_and, h, if_true]
  have : ¬ ((n : Int) < 0) := by omega
  rw [if_neg this]

/-- The result of `buildNextUrl` whenever the conversions are inside the model:
the offset parameter is `String(Number(offset) + Number(limit))`, the limit and
page parameters are `String(limit)` and `String(page)`. -/
theorem buildNextUrl_eq (baseUrl : String) (page limit offset : QueryValue)
    (order_by : List String) (o l : JsNum) (so sl sp : String)
    (ho : jsNumber offset = some o) (hl : jsNumber limit = some l)
    (hso : numberToString (jsAdd o l) = some so)
    (hsl : jsString limit = some sl) (hsp : jsString page = some sp) :
    buildNextUrl baseUrl page limit offset order_by =
      some (baseUrl ++ "?" ++
        String.mk (serializeParams (expectedParams orderEntry sp sl so order_by))) := by
  unfold buildNextUrl expectedParams
  simp only [ho, hl, hso, hsl, hsp, Option.bind_eq_bind, Option.some_bind, Option.pure_def,
    foldl_paramsAppend, List.map_map]
  have hmap : (order_by.map ((fun v => (("order_by[]", v) : String × String)) ∘ normalizeOrderBy))
      = order_by.map fun v => ("order_by[]", orderEntry v) := by
    apply List.map_congr_left
    intro v _
    simp [normalizeOrderBy_eq]
  rw [hmap]
  rfl

/-- C9 fails: the entry `a%7cdesc` holds a percent-encoded pipe with a
lower-case hexadecimal digit; the claim keeps it unchanged, the code appends
`|desc` to it. -/
theorem C9_counterexample :
    buildNextUrl "u" (.num (.ofNat 1)) (.num (.ofNat 5)) (.num (.ofNat 0)) ["a%7cdesc"] =
      some "u?offset=5&limit=5&%2Fapi%2Fv1%2FTA-pengajuan-tugas-akhir-detail=&page=1&order_by%5B%5D=a%257cdesc%7Cdesc" ∧
    parseQuery ("offset=5&limit=5&%2Fapi%2Fv1%2FTA-pengajuan-tugas-akhir-detail=&page=1&order_by%5B%5D=a%257cdesc%7Cdesc").data =
      [(utf8 "offset", utf8 "5"), (utf8 "limit", utf8 "5"),
        (utf8 "/api/v1/TA-pengajuan-tugas-akhir-detail", utf8 ""), (utf8 "page", utf8 "1"),
        (utf8 "order_by[]", utf8 "a%7cdesc|desc")] ∧
    orderEntryAnyCase "a%7cdesc" = "a%7cdesc" ∧
    utf8 "a%7cdesc|desc" ≠ utf8 "a%7cdesc" :=
  ⟨by rfl, by rfl, by decide, by decide⟩

/-- C9, amended: for page, limit and offset non-negative integers (passed as
numbers) with `offset + limit < 2 ^ 53` and `page < 2 ^ 53`, `buildNextUrl`
returns `baseUrl`, `?` and the URL-encoded serialisation of these parameters, in
this order, which is also what the query string decodes to: `offset` = the
decimal numeral of offset + limit, `limit`, the marker
`/api/v1/TA-pengajuan-tugas-akhir-detail` with empty value, `page`, then one
`order_by[]` per entry in input order, an entry being kept when it contains `|`
or the literal upper-case `%7C` and extended by `|desc` otherwise. -/
theorem C9_buildNextUrl_query (baseUrl : String) (page limit offset : Nat)
    (order_by : List String) (hsafe : offset + limit < 2 ^ 53) (hpage : page < 2 ^ 53) :
    ∃ q : List Char,
      buildNextUrl baseUrl (.num (.ofNat page)) (.num (.ofNat limit)) (.num (.ofNat offset))
        order_by = some (baseUrl ++ "?" ++ String.mk q) ∧
      q = serializeParams (expectedParams orderEntry (toString page) (toString limit)
        (toString (offset + limit)) order_by) ∧
      parseQuery q =
        (expectedParams orderEntry (toString page) (toString limit)
          (toString (offset + limit)) order_by).map fun p => (utf8 p.1, utf8 p.2) := by
  have h21 : (2 : Nat) ^ 53 < 10 ^ 21 := by decide
  refine ⟨_, buildNextUrl_eq baseUrl _ _ _ order_by (.ofNat offset) (.ofNat limit)
    (toString (offset + limit)) (toString limit) (toString page) rfl rfl ?_ ?_ ?_, rfl,
    parse_serialize _⟩
  · rw [jsAdd_ofNat offset limit hsafe]
    exact numberToString_ofNat _ (by omega)
  · exact numberToString_ofNat _ (by omega)
  · exact numberToString_ofNat _ (by omega)

/-- Witness of C9: page = 1, limit = 5, offset = 0 and the entry `x` give
`offset=5` and `order_by[]=x|desc`. -/
theorem C9_witness :
    buildNextUrl "u" (.num (.ofNat 1)) (.num (.ofNat 5)) (.num (.ofNat 0)) ["x"] =
      some "u?offset=5&limit=5&%2Fapi%2Fv1%2FTA-pengajuan-tugas-akhir-detail=&page=1&order_by%5B%5D=x%7Cdesc" ∧
    parseQuery ("offset=5&limit=5&%2Fapi%2Fv1%2FTA-pengajuan-tugas-akhir-detail=&page=1&order_by%5B%5D=x%7Cdesc").data =
      [(utf8 "offset", utf8 "5"), (utf8 "limit", utf8 "5"),
        (utf8 "/api/v1/TA-pengajuan-tugas-akhir-detail", utf8 ""), (utf8 "page", utf8 "1"),
        (utf8 "order_by[]", utf8 "x|desc")] :=
  have ⟨q, h1, h2, h3⟩ := C9_buildNextUrl_query "u" 1 5 0 ["x"] (by decide) (by decide)
  have hq : q = ("offset=5&limit=5&%2Fapi%2Fv1%2FTA-pengajuan-tugas-akhir-detail=&page=1&order_by%5B%5D=x%7Cdesc").data :=
    h2.trans (by rfl)
  ⟨h1.trans (by rw [hq]; rfl), by rw [← hq, h3]; rfl⟩

/-- The conversions on the values the `/scrape` handler passes and at the edge
of the exact range: `Number("05") = 5`, `String("05") = "05"`, and
`Number("9007199254740993")` is `2 ^ 53`. -/
theorem conversions_examples :
    jsNumber (.str "05") = some (.ofNat 5) ∧ jsString (.str "05") = some "05" ∧
    jsNumber (.str "9007199254740993") = some (.ofNat (2 ^ 53)) ∧
    buildNextUrl "u" (.str "1") (.str "5") (.str "0") [] =
      some "u?offset=5&limit=5&%2Fapi%2Fv1%2FTA-pengajuan-tugas-akhir-detail=&page=1" ∧
    buildNextUrl "u" (.num (.ofNat 1)) (.num (.ofNat 1)) (.num (.ofNat (2 ^ 53))) [] =
      some "u?offset=9007199254740992&limit=1&%2Fapi%2Fv1%2FTA-pengajuan-tugas-akhir-detail=&page=1" := by
  refine ⟨by decide, by decide, by decide, by rfl, by rfl⟩

end ScrapingJudulSkripsi
